import Mathlib

/-!
# SugarDB: key extraction of the set commands and the typed string operations

A shallow embedding of `internal/modules/set/key_funcs.go` and of `sugardb/api_string.go`.

* A token is a Go `string`; it is embedded as a Lean `String` (the tokens that are valid UTF-8).
* A `[]string` is embedded as the `List String` of its elements. A slice of length zero is `[]`,
  whether it is `nil` or was made by `make([]string, 0)`.
* A Go function either returns its pair `(result, error)` or stops with a run-time panic
  (a slice expression out of range); the three outcomes are the constructors of `Outcome`.
-/

namespace SugarDB

/-! ## Data model -/

/-- The struct `internal.KeyExtractionFuncResult`: its three fields, in the order of the
composite literals of `key_funcs.go`. -/
structure KeyExtractionFuncResult where
  Channels : List String
  ReadKeys : List String
  WriteKeys : List String
deriving DecidableEq, Repr

/-- The zero value `internal.KeyExtractionFuncResult{}`: all three slices are nil. -/
def KeyExtractionFuncResult.zero : KeyExtractionFuncResult :=
  { Channels := [], ReadKeys := [], WriteKeys := [] }

/-- What a call of a key-extraction rule does: `ok r` is `return r, nil`, `err r msg` is
`return r, errors.New(msg)`, and `panic` is a run-time panic (slice bounds out of range). -/
inductive Outcome where
  | ok (res : KeyExtractionFuncResult)
  | err (res : KeyExtractionFuncResult) (msg : String)
  | panic
deriving DecidableEq, Repr

/-- Modelled from the spec: the constant `constants.WrongArgsResponse`, declared in a package
that is not among the sources; the spec calls it the single uniform "wrong number of arguments"
signal. No rule inspects its text. -/
def WrongArgsResponse : String := "wrong number of arguments"

/-! ## Go built-ins and standard library used by the rules -/

/-- The slice expression `s[lo:hi]` on a `[]string` whose capacity is its length: it panics
(`none`) unless `0 <= lo <= hi <= len(s)`, and otherwise yields the elements `lo .. hi-1`.
Every slice expression of `key_funcs.go` has `hi <= len(cmd)` by the arity check before it, so
spare capacity of the token storage is never reached. -/
def sliceExpr (s : List String) (lo hi : Int) : Option (List String) :=
  if 0 ≤ lo ∧ lo ≤ hi ∧ hi ≤ (s.length : Int) then
    some ((s.take hi.toNat).drop lo.toNat)
  else
    none

/-- The slice expression `s[lo:]`, which is `s[lo:len(s)]`. -/
def sliceFrom (s : List String) (lo : Int) : Option (List String) :=
  sliceExpr s lo (s.length : Int)

/-- The loop of `slices.IndexFunc`: `i` is the index of the head of the remaining elements. -/
def indexFuncFrom (f : String → Bool) : List String → Int → Int
  | [], _ => -1
  | x :: xs, i => if f x then i else indexFuncFrom f xs (i + 1)

/-- The function `slices.IndexFunc(s, f)`: the first index `i` with `f(s[i])`, or `-1`. -/
def IndexFunc (s : List String) (f : String → Bool) : Int :=
  indexFuncFrom f s 0

/-- The general case of the rune comparison of `strings.EqualFold`, reached with `sr < tr` and
`tr` not ASCII: `tr` is reached from `sr` by `unicode.SimpleFold`. The orbits listed are those of
the ASCII letters that leave ASCII (K, k, U+212A KELVIN SIGN and S, s, U+017F LONG S); the
orbits of two non-ASCII runes are in the Unicode tables and are not listed, which the
comparison with an ASCII literal, the only one in `key_funcs.go`, never consults. -/
def foldGeneral (sr tr : Char) : Bool :=
  ((sr.toNat = 0x4B ∨ sr.toNat = 0x6B) ∧ tr.toNat = 0x212A) ∨
  ((sr.toNat = 0x53 ∨ sr.toNat = 0x73) ∧ tr.toNat = 0x17F)

/-- One step of the rune loop of `strings.EqualFold`: whether the runes `sr` and `tr` match.
Equal runes match; otherwise the two are ordered, two ASCII runes match when the smaller is
in `'A'..'Z'` and the larger is it plus `'a' - 'A'`, and `foldGeneral` decides the rest. -/
def foldRune (sr tr : Char) : Bool :=
  if tr = sr then true
  else
    let lo := if tr.toNat < sr.toNat then tr else sr
    let hi := if tr.toNat < sr.toNat then sr else tr
    if hi.toNat < 0x80 then
      decide (0x41 ≤ lo.toNat ∧ lo.toNat ≤ 0x5A ∧ hi.toNat = lo.toNat + 0x20)
    else
      foldGeneral lo hi

/-- The rune loop of `strings.EqualFold` on the runes of both strings: every pair of runes
matches and both strings are exhausted together. -/
def equalFoldRunes : List Char → List Char → Bool
  | [], [] => true
  | sr :: s, tr :: t => foldRune sr tr && equalFoldRunes s t
  | _, _ => false

/-- The function `strings.EqualFold(s, t)`: equality under simple Unicode case folding. -/
def EqualFold (s t : String) : Bool :=
  equalFoldRunes s.data t.data

/-- The closure passed to `slices.IndexFunc` in `sintercardKeyFunc`. -/
def isLimit (s : String) : Bool :=
  EqualFold s "limit"

/-- The end of a rule whose composite literal holds slice expressions: the result when every
slice expression is in range, a panic otherwise. -/
def returning : Option KeyExtractionFuncResult → Outcome
  | some r => Outcome.ok r
  | none => Outcome.panic

/-! ## The sixteen rules of `key_funcs.go` -/

def saddKeyFunc (cmd : List String) : Outcome :=
  if cmd.length < 3 then
    Outcome.err KeyExtractionFuncResult.zero WrongArgsResponse
  else
    returning do
      let w ← sliceExpr cmd 1 2
      pure { Channels := [], ReadKeys := [], WriteKeys := w }

def scardKeyFunc (cmd : List String) : Outcome :=
  if cmd.length ≠ 2 then
    Outcome.err KeyExtractionFuncResult.zero WrongArgsResponse
  else
    returning do
      let r ← sliceExpr cmd 1 2
      pure { Channels := [], ReadKeys := r, WriteKeys := [] }

def sdiffKeyFunc (cmd : List String) : Outcome :=
  if cmd.length < 2 then
    Outcome.err KeyExtractionFuncResult.zero WrongArgsResponse
  else
    returning do
      let r ← sliceFrom cmd 1
      pure { Channels := [], ReadKeys := r, WriteKeys := [] }

def sdiffstoreKeyFunc (cmd : List String) : Outcome :=
  if cmd.length < 3 then
    Outcome.err KeyExtractionFuncResult.zero WrongArgsResponse
  else
    returning do
      let r ← sliceFrom cmd 2
      let w ← sliceExpr cmd 1 2
      pure { Channels := [], ReadKeys := r, WriteKeys := w }

def sinterKeyFunc (cmd : List String) : Outcome :=
  if cmd.length < 2 then
    Outcome.err KeyExtractionFuncResult.zero WrongArgsResponse
  else
    returning do
      let r ← sliceFrom cmd 1
      pure { Channels := [], ReadKeys := r, WriteKeys := [] }

def sintercardKeyFunc (cmd : List String) : Outcome :=
  if cmd.length < 2 then
    Outcome.err KeyExtractionFuncResult.zero WrongArgsResponse
  else
    let limitIdx := IndexFunc cmd isLimit
    if limitIdx = -1 then
      returning do
        let r ← sliceFrom cmd 1
        pure { Channels := [], ReadKeys := r, WriteKeys := [] }
    else
      returning do
        let r ← sliceExpr cmd 1 limitIdx
        pure { Channels := [], ReadKeys := r, WriteKeys := [] }

def sinterstoreKeyFunc (cmd : List String) : Outcome :=
  if cmd.length < 3 then
    Outcome.err KeyExtractionFuncResult.zero WrongArgsResponse
  else
    returning do
      let r ← sliceFrom cmd 2
      let w ← sliceExpr cmd 1 2
      pure { Channels := [], ReadKeys := r, WriteKeys := w }

def sismemberKeyFunc (cmd : List String) : Outcome :=
  if cmd.length ≠ 3 then
    Outcome.err KeyExtractionFuncResult.zero WrongArgsResponse
  else
    returning do
      let r ← sliceFrom cmd 1
      pure { Channels := [], ReadKeys := r, WriteKeys := [] }

def smembersKeyFunc (cmd : List String) : Outcome :=
  if cmd.length ≠ 2 then
    Outcome.err KeyExtractionFuncResult.zero WrongArgsResponse
  else
    returning do
      let r ← sliceFrom cmd 1
      pure { Channels := [], ReadKeys := r, WriteKeys := [] }

def smismemberKeyFunc (cmd : List String) : Outcome :=
  if cmd.length < 3 then
    Outcome.err KeyExtractionFuncResult.zero WrongArgsResponse
  else
    returning do
      let r ← sliceExpr cmd 1 2
      pure { Channels := [], ReadKeys := r, WriteKeys := [] }

def smoveKeyFunc (cmd : List String) : Outcome :=
  if cmd.length ≠ 4 then
    Outcome.err KeyExtractionFuncResult.zero WrongArgsResponse
  else
    returning do
      let w ← sliceExpr cmd 1 3
      pure { Channels := [], ReadKeys := [], WriteKeys := w }

def spopKeyFunc (cmd : List String) : Outcome :=
  if cmd.length < 2 ∨ cmd.length > 3 then
    Outcome.err KeyExtractionFuncResult.zero WrongArgsResponse
  else
    returning do
      let w ← sliceExpr cmd 1 2
      pure { Channels := [], ReadKeys := [], WriteKeys := w }

def srandmemberKeyFunc (cmd : List String) : Outcome :=
  if cmd.length < 2 ∨ cmd.length > 3 then
    Outcome.err KeyExtractionFuncResult.zero WrongArgsResponse
  else
    returning do
      let r ← sliceExpr cmd 1 2
      pure { Channels := [], ReadKeys := r, WriteKeys := [] }

def sremKeyFunc (cmd : List String) : Outcome :=
  if cmd.length < 3 then
    Outcome.err KeyExtractionFuncResult.zero WrongArgsResponse
  else
    returning do
      let w ← sliceExpr cmd 1 2
      pure { Channels := [], ReadKeys := [], WriteKeys := w }

def sunionKeyFunc (cmd : List String) : Outcome :=
  if cmd.length < 2 then
    Outcome.err KeyExtractionFuncResult.zero WrongArgsResponse
  else
    returning do
      let r ← sliceFrom cmd 1
      pure { Channels := [], ReadKeys := r, WriteKeys := [] }

def sunionstoreKeyFunc (cmd : List String) : Outcome :=
  if cmd.length < 3 then
    Outcome.err KeyExtractionFuncResult.zero WrongArgsResponse
  else
    returning do
      let r ← sliceFrom cmd 2
      let w ← sliceExpr cmd 1 2
      pure { Channels := [], ReadKeys := r, WriteKeys := w }

/-! ## The rules as a family -/

/-- The sixteen key-extraction rules of `key_funcs.go`, one per command verb. -/
inductive Rule where
  | sadd | scard | sdiff | sdiffstore | sinter | sintercard | sinterstore | sismember
  | smembers | smismember | smove | spop | srandmember | srem | sunion | sunionstore
deriving DecidableEq, Repr

/-- The function of `key_funcs.go` that a rule names. -/
def Rule.run : Rule → List String → Outcome
  | Rule.sadd => saddKeyFunc
  | Rule.scard => scardKeyFunc
  | Rule.sdiff => sdiffKeyFunc
  | Rule.sdiffstore => sdiffstoreKeyFunc
  | Rule.sinter => sinterKeyFunc
  | Rule.sintercard => sintercardKeyFunc
  | Rule.sinterstore => sinterstoreKeyFunc
  | Rule.sismember => sismemberKeyFunc
  | Rule.smembers => smembersKeyFunc
  | Rule.smismember => smismemberKeyFunc
  | Rule.smove => smoveKeyFunc
  | Rule.spop => spopKeyFunc
  | Rule.srandmember => srandmemberKeyFunc
  | Rule.srem => sremKeyFunc
  | Rule.sunion => sunionKeyFunc
  | Rule.sunionstore => sunionstoreKeyFunc

/-- The minimum token count the specification gives for each rule: 3 for SADD, SREM,
SDIFFSTORE, SINTERSTORE, SUNIONSTORE, SISMEMBER and SMISMEMBER, 4 for SMOVE, and 2 for SCARD,
SMEMBERS, SDIFF, SINTER, SUNION, SINTERCARD, SPOP and SRANDMEMBER. -/
def Rule.minTokens : Rule → Nat
  | Rule.sadd => 3
  | Rule.srem => 3
  | Rule.sdiffstore => 3
  | Rule.sinterstore => 3
  | Rule.sunionstore => 3
  | Rule.sismember => 3
  | Rule.smismember => 3
  | Rule.smove => 4
  | Rule.scard => 2
  | Rule.smembers => 2
  | Rule.sdiff => 2
  | Rule.sinter => 2
  | Rule.sunion => 2
  | Rule.sintercard => 2
  | Rule.spop => 2
  | Rule.srandmember => 2

/-- A call succeeds when it returns a result with a nil error. -/
def Succeeds (o : Outcome) : Prop :=
  ∃ r, o = Outcome.ok r

/-! ## The typed string operations of `sugardb/api_string.go`

The operations call `server.handleCommand` and three functions of package `internal`, none of
which is among the sources: they are parameters of the embedding, the method and the field
`context` as the fields of `SugarDB`, the package functions as the fields of `Internal`. A Go
`int` is embedded as an `Int`, a `[]byte` as a `List UInt8`. -/

/-- A Go `error` value that is not nil, identified with its message. -/
abbrev GoError := String

set_option linter.dupNamespace false

/-- The functions of package `internal` that `api_string.go` calls. -/
structure Internal where
  EncodeCommand : List String → List UInt8
  ParseIntegerResponse : List UInt8 → Int × Option GoError
  ParseStringResponse : List UInt8 → String × Option GoError

/-- The receiver `*SugarDB` as the typed operations use it: the field `context` and the method
`handleCommand(ctx, message, conn, replay, embedded)`, which returns a `[]byte` and an error. -/
structure SugarDB (Context Conn : Type) where
  context : Context
  handleCommand : Context → List UInt8 → Option Conn → Bool → Bool → List UInt8 × Option GoError

/-- The decimal digits of `u`, most significant first, put before `acc`: the digit loop of
`strconv.FormatInt` in base 10 (which takes them two at a time from a table of the numbers
below 100; the digits are the same). -/
def formatBits (u : Nat) (acc : List Char) : List Char :=
  if u < 10 then
    Char.ofNat (0x30 + u) :: acc
  else
    formatBits (u / 10) (Char.ofNat (0x30 + u % 10) :: acc)
termination_by u
decreasing_by omega

/-- The function `strconv.Itoa(i)`, which is `FormatInt(int64(i), 10)`: the digits of the
magnitude, after a minus sign when `i` is negative. -/
def Itoa (i : Int) : String :=
  if i < 0 then String.mk ('-' :: formatBits i.natAbs []) else String.mk (formatBits i.natAbs [])

/-- `SetRange` of `api_string.go`. -/
def SugarDB.SetRange {Context Conn : Type} (server : SugarDB Context Conn) (internal : Internal)
    (key : String) (offset : Int) (new : String) : Int × Option GoError :=
  match server.handleCommand server.context
      (internal.EncodeCommand ["SETRANGE", key, Itoa offset, new]) none false true with
  | (_, some err) => (0, some err)
  | (b, none) => internal.ParseIntegerResponse b

/-- `StrLen` of `api_string.go`. -/
def SugarDB.StrLen {Context Conn : Type} (server : SugarDB Context Conn) (internal : Internal)
    (key : String) : Int × Option GoError :=
  match server.handleCommand server.context
      (internal.EncodeCommand ["STRLEN", key]) none false true with
  | (_, some err) => (0, some err)
  | (b, none) => internal.ParseIntegerResponse b

/-- `SubStr` of `api_string.go`. -/
def SugarDB.SubStr {Context Conn : Type} (server : SugarDB Context Conn) (internal : Internal)
    (key : String) (start end_ : Int) : String × Option GoError :=
  match server.handleCommand server.context
      (internal.EncodeCommand ["SUBSTR", key, Itoa start, Itoa end_]) none false true with
  | (_, some err) => ("", some err)
  | (b, none) => internal.ParseStringResponse b

/-- `GetRange` of `api_string.go`. -/
def SugarDB.GetRange {Context Conn : Type} (server : SugarDB Context Conn) (internal : Internal)
    (key : String) (start end_ : Int) : String × Option GoError :=
  match server.handleCommand server.context
      (internal.EncodeCommand ["GETRANGE", key, Itoa start, Itoa end_]) none false true with
  | (_, some err) => ("", some err)
  | (b, none) => internal.ParseStringResponse b

/-- `Append` of `api_string.go`. -/
def SugarDB.Append {Context Conn : Type} (server : SugarDB Context Conn) (internal : Internal)
    (key : String) (value : String) : Int × Option GoError :=
  match server.handleCommand server.context
      (internal.EncodeCommand ["APPEND", key, value]) none false true with
  | (_, some err) => (0, some err)
  | (b, none) => internal.ParseIntegerResponse b

/-! ## The specification's words for the typed operations -/

/-- What the command handler returns for a token list that is encoded and submitted with the
settings every operation of `api_string.go` passes: no connection, no replay, embedded. -/
def SugarDB.submit {Context Conn : Type} (server : SugarDB Context Conn)
    (encode : List String → List UInt8) (tokens : List String) : List UInt8 × Option GoError :=
  server.handleCommand server.context (encode tokens) none false true

/-- The invocation pipeline as the specification describes it: build the raw command from the
token list with the codec, submit it to the command handler with the call-level settings, and
on an engine failure surface the error unchanged beside the zero value, on success decode the
response in the expected shape. -/
def invocationPipeline {Context Conn α : Type} (server : SugarDB Context Conn)
    (encode : List String → List UInt8) (decode : List UInt8 → α × Option GoError) (zero : α)
    (tokens : List String) : α × Option GoError :=
  let response := server.submit encode tokens
  if response.2.isSome then (zero, response.2) else decode response.1

/-- The value of a string of decimal digits, read from the left. -/
def decimalValue (ds : List Char) : Nat :=
  ds.foldl (fun acc c => 10 * acc + (c.toNat - 0x30)) 0

/-- Whether a rune is one of the digits 0 to 9. -/
def isDecimalDigit (c : Char) : Bool :=
  decide (0x30 ≤ c.toNat ∧ c.toNat ≤ 0x39)

/-- The integer a token denotes in base 10: digits, or a minus sign and digits. -/
def parseDecimal (s : String) : Option Int :=
  match s.data with
  | [] => none
  | c :: ds =>
    if c = '-' then
      if ds ≠ [] ∧ ds.all isDecimalDigit then some (-(decimalValue ds : Int)) else none
    else if (c :: ds).all isDecimalDigit then some (decimalValue (c :: ds) : Int)
    else none

/-! ## Slices as views of shared storage

The embedding above takes a `[]string` for the list of its elements, which cannot say whether
two slices share storage. Here a `[]string` is its slice header, a view of a backing array of
the heap, and the sixteen rules are embedded a second time, under `Mem`, with `make` allocating
and slice expressions re-viewing the storage of their operand. -/

/-- The backing arrays allocated so far; a backing array is named by its index. -/
abbrev Heap := List (List String)

/-- A `[]string` value: the backing array it points into (`none` for a nil slice), the index
of its first element there, its length and its capacity. -/
structure Slice where
  arr : Option Nat
  off : Nat
  len : Nat
  cap : Nat
deriving DecidableEq, Repr

/-- The nil slice, the zero value of `[]string`. -/
def Slice.nil : Slice :=
  { arr := none, off := 0, len := 0, cap := 0 }

/-- The elements a slice views in a heap. -/
def Slice.elems (h : Heap) (s : Slice) : List String :=
  match s.arr with
  | none => []
  | some a => ((h.getD a []).drop s.off).take s.len

/-- The slice expression `s[lo:hi]`: it panics (`none`) unless `0 <= lo <= hi <= cap(s)`, and
otherwise views the same backing array from `lo` on, with length `hi - lo`. -/
def Slice.sliceExpr (s : Slice) (lo hi : Int) : Option Slice :=
  if 0 ≤ lo ∧ lo ≤ hi ∧ hi ≤ (s.cap : Int) then
    some
      { arr := s.arr, off := s.off + lo.toNat, len := (hi - lo).toNat, cap := s.cap - lo.toNat }
  else
    none

/-- The slice expression `s[lo:]`, which is `s[lo:len(s)]`. -/
def Slice.sliceFrom (s : Slice) (lo : Int) : Option Slice :=
  s.sliceExpr lo (s.len : Int)

/-- The call `make([]string, 0)`: a new backing array with no element, and the slice of
length and capacity zero that views it. -/
def makeSlice (h : Heap) : Heap × Slice :=
  (h ++ [[]], { arr := some h.length, off := 0, len := 0, cap := 0 })

/-- The assignment `s[i] = v`: it panics (`none`) unless `i < len(s)`, and otherwise stores
`v` in the backing array at the index the slice views as `i`. -/
def Slice.assign (h : Heap) (s : Slice) (i : Nat) (v : String) : Option Heap :=
  match s.arr with
  | none => none
  | some a => if i < s.len then some (h.set a ((h.getD a []).set (s.off + i) v)) else none

namespace Mem

/-- The struct `internal.KeyExtractionFuncResult` with its fields as slice headers. -/
structure KeyExtractionFuncResult where
  Channels : Slice
  ReadKeys : Slice
  WriteKeys : Slice
deriving DecidableEq, Repr

/-- The zero value `internal.KeyExtractionFuncResult{}`: three nil slices. -/
def KeyExtractionFuncResult.zero : KeyExtractionFuncResult :=
  { Channels := Slice.nil, ReadKeys := Slice.nil, WriteKeys := Slice.nil }

/-- What a call of a rule does, with the heap it leaves: a result and a nil error, a result
and an error, or a run-time panic. -/
inductive Outcome where
  | ok (heap : Heap) (res : KeyExtractionFuncResult)
  | err (heap : Heap) (res : KeyExtractionFuncResult) (msg : String)
  | panic
deriving DecidableEq, Repr

def saddKeyFunc (h : Heap) (cmd : Slice) : Outcome :=
  if cmd.len < 3 then
    Outcome.err h KeyExtractionFuncResult.zero WrongArgsResponse
  else
    let channels := makeSlice h
    let readKeys := makeSlice channels.1
    match cmd.sliceExpr 1 2 with
    | none => Outcome.panic
    | some writeKeys =>
      Outcome.ok readKeys.1
        { Channels := channels.2, ReadKeys := readKeys.2, WriteKeys := writeKeys }

def scardKeyFunc (h : Heap) (cmd : Slice) : Outcome :=
  if cmd.len ≠ 2 then
    Outcome.err h KeyExtractionFuncResult.zero WrongArgsResponse
  else
    let channels := makeSlice h
    match cmd.sliceExpr 1 2 with
    | none => Outcome.panic
    | some readKeys =>
      let writeKeys := makeSlice channels.1
      Outcome.ok writeKeys.1
        { Channels := channels.2, ReadKeys := readKeys, WriteKeys := writeKeys.2 }

def sdiffKeyFunc (h : Heap) (cmd : Slice) : Outcome :=
  if cmd.len < 2 then
    Outcome.err h KeyExtractionFuncResult.zero WrongArgsResponse
  else
    let channels := makeSlice h
    match cmd.sliceFrom 1 with
    | none => Outcome.panic
    | some readKeys =>
      let writeKeys := makeSlice channels.1
      Outcome.ok writeKeys.1
        { Channels := channels.2, ReadKeys := readKeys, WriteKeys := writeKeys.2 }

def sdiffstoreKeyFunc (h : Heap) (cmd : Slice) : Outcome :=
  if cmd.len < 3 then
    Outcome.err h KeyExtractionFuncResult.zero WrongArgsResponse
  else
    let channels := makeSlice h
    match cmd.sliceFrom 2 with
    | none => Outcome.panic
    | some readKeys =>
      match cmd.sliceExpr 1 2 with
      | none => Outcome.panic
      | some writeKeys =>
        Outcome.ok channels.1
          { Channels := channels.2, ReadKeys := readKeys, WriteKeys := writeKeys }

def sinterKeyFunc (h : Heap) (cmd : Slice) : Outcome :=
  if cmd.len < 2 then
    Outcome.err h KeyExtractionFuncResult.zero WrongArgsResponse
  else
    let channels := makeSlice h
    match cmd.sliceFrom 1 with
    | none => Outcome.panic
    | some readKeys =>
      let writeKeys := makeSlice channels.1
      Outcome.ok writeKeys.1
        { Channels := channels.2, ReadKeys := readKeys, WriteKeys := writeKeys.2 }

def sintercardKeyFunc (h : Heap) (cmd : Slice) : Outcome :=
  if cmd.len < 2 then
    Outcome.err h KeyExtractionFuncResult.zero WrongArgsResponse
  else
    let limitIdx := IndexFunc (cmd.elems h) isLimit
    if limitIdx = -1 then
      let channels := makeSlice h
      match cmd.sliceFrom 1 with
      | none => Outcome.panic
      | some readKeys =>
        let writeKeys := makeSlice channels.1
        Outcome.ok writeKeys.1
          { Channels := channels.2, ReadKeys := readKeys, WriteKeys := writeKeys.2 }
    else
      let channels := makeSlice h
      match cmd.sliceExpr 1 limitIdx with
      | none => Outcome.panic
      | some readKeys =>
        let writeKeys := makeSlice channels.1
        Outcome.ok writeKeys.1
          { Channels := channels.2, ReadKeys := readKeys, WriteKeys := writeKeys.2 }

def sinterstoreKeyFunc (h : Heap) (cmd : Slice) : Outcome :=
  if cmd.len < 3 then
    Outcome.err h KeyExtractionFuncResult.zero WrongArgsResponse
  else
    let channels := makeSlice h
    match cmd.sliceFrom 2 with
    | none => Outcome.panic
    | some readKeys =>
      match cmd.sliceExpr 1 2 with
      | none => Outcome.panic
      | some writeKeys =>
        Outcome.ok channels.1
          { Channels := channels.2, ReadKeys := readKeys, WriteKeys := writeKeys }

def sismemberKeyFunc (h : Heap) (cmd : Slice) : Outcome :=
  if cmd.len ≠ 3 then
    Outcome.err h KeyExtractionFuncResult.zero WrongArgsResponse
  else
    let channels := makeSlice h
    match cmd.sliceFrom 1 with
    | none => Outcome.panic
    | some readKeys =>
      let writeKeys := makeSlice channels.1
      Outcome.ok writeKeys.1
        { Channels := channels.2, ReadKeys := readKeys, WriteKeys := writeKeys.2 }

def smembersKeyFunc (h : Heap) (cmd : Slice) : Outcome :=
  if cmd.len ≠ 2 then
    Outcome.err h KeyExtractionFuncResult.zero WrongArgsResponse
  else
    let channels := makeSlice h
    match cmd.sliceFrom 1 with
    | none => Outcome.panic
    | some readKeys =>
      let writeKeys := makeSlice channels.1
      Outcome.ok writeKeys.1
        { Channels := channels.2, ReadKeys := readKeys, WriteKeys := writeKeys.2 }

def smismemberKeyFunc (h : Heap) (cmd : Slice) : Outcome :=
  if cmd.len < 3 then
    Outcome.err h KeyExtractionFuncResult.zero WrongArgsResponse
  else
    let channels := makeSlice h
    match cmd.sliceExpr 1 2 with
    | none => Outcome.panic
    | some readKeys =>
      let writeKeys := makeSlice channels.1
      Outcome.ok writeKeys.1
        { Channels := channels.2, ReadKeys := readKeys, WriteKeys := writeKeys.2 }

def smoveKeyFunc (h : Heap) (cmd : Slice) : Outcome :=
  if cmd.len ≠ 4 then
    Outcome.err h KeyExtractionFuncResult.zero WrongArgsResponse
  else
    let channels := makeSlice h
    let readKeys := makeSlice channels.1
    match cmd.sliceExpr 1 3 with
    | none => Outcome.panic
    | some writeKeys =>
      Outcome.ok readKeys.1
        { Channels := channels.2, ReadKeys := readKeys.2, WriteKeys := writeKeys }

def spopKeyFunc (h : Heap) (cmd : Slice) : Outcome :=
  if cmd.len < 2 ∨ cmd.len > 3 then
    Outcome.err h KeyExtractionFuncResult.zero WrongArgsResponse
  else
    let channels := makeSlice h
    let readKeys := makeSlice channels.1
    match cmd.sliceExpr 1 2 with
    | none => Outcome.panic
    | some writeKeys =>
      Outcome.ok readKeys.1
        { Channels := channels.2, ReadKeys := readKeys.2, WriteKeys := writeKeys }

def srandmemberKeyFunc (h : Heap) (cmd : Slice) : Outcome :=
  if cmd.len < 2 ∨ cmd.len > 3 then
    Outcome.err h KeyExtractionFuncResult.zero WrongArgsResponse
  else
    let channels := makeSlice h
    match cmd.sliceExpr 1 2 with
    | none => Outcome.panic
    | some readKeys =>
      let writeKeys := makeSlice channels.1
      Outcome.ok writeKeys.1
        { Channels := channels.2, ReadKeys := readKeys, WriteKeys := writeKeys.2 }

def sremKeyFunc (h : Heap) (cmd : Slice) : Outcome :=
  if cmd.len < 3 then
    Outcome.err h KeyExtractionFuncResult.zero WrongArgsResponse
  else
    let channels := makeSlice h
    let readKeys := makeSlice channels.1
    match cmd.sliceExpr 1 2 with
    | none => Outcome.panic
    | some writeKeys =>
      Outcome.ok readKeys.1
        { Channels := channels.2, ReadKeys := readKeys.2, WriteKeys := writeKeys }

def sunionKeyFunc (h : Heap) (cmd : Slice) : Outcome :=
  if cmd.len < 2 then
    Outcome.err h KeyExtractionFuncResult.zero WrongArgsResponse
  else
    let channels := makeSlice h
    match cmd.sliceFrom 1 with
    | none => Outcome.panic
    | some readKeys =>
      let writeKeys := makeSlice channels.1
      Outcome.ok writeKeys.1
        { Channels := channels.2, ReadKeys := readKeys, WriteKeys := writeKeys.2 }

def sunionstoreKeyFunc (h : Heap) (cmd : Slice) : Outcome :=
  if cmd.len < 3 then
    Outcome.err h KeyExtractionFuncResult.zero WrongArgsResponse
  else
    let channels := makeSlice h
    match cmd.sliceFrom 2 with
    | none => Outcome.panic
    | some readKeys =>
      match cmd.sliceExpr 1 2 with
      | none => Outcome.panic
      | some writeKeys =>
        Outcome.ok channels.1
          { Channels := channels.2, ReadKeys := readKeys, WriteKeys := writeKeys }

/-- The function of `key_funcs.go` that a rule names, on slice headers. -/
def run : Rule → Heap → Slice → Outcome
  | Rule.sadd => saddKeyFunc
  | Rule.scard => scardKeyFunc
  | Rule.sdiff => sdiffKeyFunc
  | Rule.sdiffstore => sdiffstoreKeyFunc
  | Rule.sinter => sinterKeyFunc
  | Rule.sintercard => sintercardKeyFunc
  | Rule.sinterstore => sinterstoreKeyFunc
  | Rule.sismember => sismemberKeyFunc
  | Rule.smembers => smembersKeyFunc
  | Rule.smismember => smismemberKeyFunc
  | Rule.smove => smoveKeyFunc
  | Rule.spop => spopKeyFunc
  | Rule.srandmember => srandmemberKeyFunc
  | Rule.srem => sremKeyFunc
  | Rule.sunion => sunionKeyFunc
  | Rule.sunionstore => sunionstoreKeyFunc

/-- What a heap outcome shows to a reader of the returned sequences: the outcome of the
embedding on lists. -/
def Outcome.view : Outcome → SugarDB.Outcome
  | Outcome.ok heap res =>
    SugarDB.Outcome.ok
      { Channels := res.Channels.elems heap
        ReadKeys := res.ReadKeys.elems heap
        WriteKeys := res.WriteKeys.elems heap }
  | Outcome.err heap res msg =>
    SugarDB.Outcome.err
      { Channels := res.Channels.elems heap
        ReadKeys := res.ReadKeys.elems heap
        WriteKeys := res.WriteKeys.elems heap }
      msg
  | Outcome.panic => SugarDB.Outcome.panic

end Mem

/-- A command slice that views allocated storage: its backing array is in the heap and holds
the whole capacity of the slice. -/
def Slice.WellFormed (h : Heap) (s : Slice) : Prop :=
  ∃ a, s.arr = some a ∧ a < h.length ∧ s.len ≤ s.cap ∧ s.off + s.cap ≤ (h.getD a []).length

/-- A slice made during a call on the heap `h`: it is empty and views a backing array that
`h` does not have. -/
def Slice.Fresh (h : Heap) (s : Slice) : Prop :=
  s.len = 0 ∧ ∃ a, s.arr = some a ∧ h.length ≤ a

/-- A slice that views storage of the slice `cmd`: the same backing array, and only indices
that `cmd` views. -/
def Slice.Within (s cmd : Slice) : Prop :=
  s.arr = cmd.arr ∧ cmd.off ≤ s.off ∧ s.off + s.len ≤ cmd.off + cmd.len

/-! ## The specification's words for the keyword scan -/

/-- A token is a case spelling of the keyword when it is `limit` with each letter in upper or
lower case, that is, when lowering its ASCII capitals gives `limit`: the 32 tokens LIMIT,
limit, Limit, LiMiT and so on. -/
def isCaseSpellingOfLimit (s : String) : Bool :=
  s.data.map Char.toLower == "limit".data

/-! ## Slice expressions and the keyword scan -/

theorem sliceExpr_natCast (s : List String) (lo hi : Nat) (h1 : lo ≤ hi) (h2 : hi ≤ s.length) :
    sliceExpr s (lo : Int) (hi : Int) = some ((s.take hi).drop lo) := by
  unfold sliceExpr
  rw [if_pos ⟨by omega, by omega, by omega⟩]
  simp

theorem sliceExpr_one_two (v k : String) (rest : List String) :
    sliceExpr (v :: k :: rest) 1 2 = some [k] := by
  have h := sliceExpr_natCast (v :: k :: rest) 1 2 (by omega) (by simp)
  simpa using h

theorem sliceExpr_one_three (v a b : String) (rest : List String) :
    sliceExpr (v :: a :: b :: rest) 1 3 = some [a, b] := by
  have h := sliceExpr_natCast (v :: a :: b :: rest) 1 3 (by omega) (by simp)
  simpa using h

theorem sliceFrom_one (v : String) (rest : List String) :
    sliceFrom (v :: rest) 1 = some rest := by
  have h := sliceExpr_natCast (v :: rest) 1 (v :: rest).length (by simp) (by simp)
  simpa [sliceFrom] using h

theorem sliceFrom_two (v k : String) (rest : List String) :
    sliceFrom (v :: k :: rest) 2 = some rest := by
  have h := sliceExpr_natCast (v :: k :: rest) 2 (v :: k :: rest).length (by simp) (by simp)
  simpa [sliceFrom] using h

/-- A scan that meets no matching token returns `-1`. -/
theorem indexFuncFrom_of_forall_false (f : String → Bool) (s : List String) (i : Int)
    (h : ∀ x ∈ s, f x = false) : indexFuncFrom f s i = -1 := by
  induction s generalizing i with
  | nil => rfl
  | cons x xs ih =>
    have hx : f x = false := h x (List.mem_cons_self x xs)
    have hxs : ∀ y ∈ xs, f y = false := fun y hy => h y (List.mem_cons_of_mem x hy)
    simp [indexFuncFrom, hx, ih (i + 1) hxs]

/-- A scan returns the position of the first matching token. -/
theorem indexFuncFrom_append (f : String → Bool) (pre : List String) (x : String)
    (post : List String) (i : Int) (hpre : ∀ y ∈ pre, f y = false) (hx : f x = true) :
    indexFuncFrom f (pre ++ x :: post) i = i + (pre.length : Int) := by
  induction pre generalizing i with
  | nil => simp [indexFuncFrom, hx]
  | cons y ys ih =>
    have hy : f y = false := hpre y (List.mem_cons_self y ys)
    have hys : ∀ z ∈ ys, f z = false := fun z hz => hpre z (List.mem_cons_of_mem y hz)
    have step : indexFuncFrom f (y :: ys ++ x :: post) i
        = indexFuncFrom f (ys ++ x :: post) (i + 1) := by
      simp [indexFuncFrom, hy]
    rw [step, ih (i + 1) hys]
    simp only [List.length_cons]
    push_cast
    omega

/-- A scan started at a non-negative index returns `-1` only when no token matches. -/
theorem forall_false_of_indexFuncFrom (f : String → Bool) (s : List String) (i : Int)
    (hi : 0 ≤ i) (h : indexFuncFrom f s i = -1) : ∀ x ∈ s, f x = false := by
  induction s generalizing i with
  | nil => intro x hx; cases hx
  | cons y ys ih =>
    cases hy : f y with
    | true =>
      have h2 : i = -1 := by simpa [indexFuncFrom, hy] using h
      omega
    | false =>
      have h2 : indexFuncFrom f ys (i + 1) = -1 := by simpa [indexFuncFrom, hy] using h
      intro x hx
      rcases List.mem_cons.mp hx with rfl | hx
      · exact hy
      · exact ih (i + 1) (by omega) h2 x hx

/-- A scan that does not return `-1` stopped at the first matching token. -/
theorem indexFuncFrom_ne_neg_one (f : String → Bool) (s : List String) (i : Int) (hi : 0 ≤ i)
    (h : indexFuncFrom f s i ≠ -1) :
    ∃ pre x post, s = pre ++ x :: post ∧ (∀ y ∈ pre, f y = false) ∧ f x = true := by
  induction s generalizing i with
  | nil => exact absurd rfl h
  | cons y ys ih =>
    cases hy : f y with
    | true => exact ⟨[], y, ys, rfl, by simp, hy⟩
    | false =>
      have h2 : indexFuncFrom f ys (i + 1) ≠ -1 := by
        simpa [indexFuncFrom, hy] using h
      obtain ⟨pre, x, post, hs, hpre, hx⟩ := ih (i + 1) (by omega) h2
      refine ⟨y :: pre, x, post, by simp [hs], ?_, hx⟩
      intro z hz
      rcases List.mem_cons.mp hz with rfl | hz
      · exact hy
      · exact hpre z hz


/-! ## The rules without the panic layer -/

theorem sliceExpr_one_two_of_le (cmd : List String) (h : 2 ≤ cmd.length) :
    sliceExpr cmd 1 2 = some ((cmd.take 2).drop 1) := by
  have h2 := sliceExpr_natCast cmd 1 2 (by omega) h
  simpa using h2

theorem sliceExpr_one_three_of_le (cmd : List String) (h : 3 ≤ cmd.length) :
    sliceExpr cmd 1 3 = some ((cmd.take 3).drop 1) := by
  have h2 := sliceExpr_natCast cmd 1 3 (by omega) h
  simpa using h2

theorem sliceFrom_one_of_le (cmd : List String) (h : 1 ≤ cmd.length) :
    sliceFrom cmd 1 = some (cmd.drop 1) := by
  have h2 := sliceExpr_natCast cmd 1 cmd.length h (le_refl _)
  simpa [sliceFrom] using h2

theorem sliceFrom_two_of_le (cmd : List String) (h : 2 ≤ cmd.length) :
    sliceFrom cmd 2 = some (cmd.drop 2) := by
  have h2 := sliceExpr_natCast cmd 2 cmd.length h (le_refl _)
  simpa [sliceFrom] using h2

theorem returning_ne_err (o : Option KeyExtractionFuncResult) (res : KeyExtractionFuncResult)
    (msg : String) : returning o ≠ Outcome.err res msg := by
  cases o <;> simp [returning]

theorem saddKeyFunc_eq (cmd : List String) :
    saddKeyFunc cmd =
      if cmd.length < 3 then Outcome.err KeyExtractionFuncResult.zero WrongArgsResponse
      else Outcome.ok ⟨[], [], (cmd.take 2).drop 1⟩ := by
  unfold saddKeyFunc
  split_ifs with h
  · rfl
  · rw [sliceExpr_one_two_of_le cmd (by omega)]; rfl

theorem scardKeyFunc_eq (cmd : List String) :
    scardKeyFunc cmd =
      if cmd.length ≠ 2 then Outcome.err KeyExtractionFuncResult.zero WrongArgsResponse
      else Outcome.ok ⟨[], (cmd.take 2).drop 1, []⟩ := by
  unfold scardKeyFunc
  split_ifs with h
  · rfl
  · rw [sliceExpr_one_two_of_le cmd (by omega)]; rfl

theorem sdiffKeyFunc_eq (cmd : List String) :
    sdiffKeyFunc cmd =
      if cmd.length < 2 then Outcome.err KeyExtractionFuncResult.zero WrongArgsResponse
      else Outcome.ok ⟨[], cmd.drop 1, []⟩ := by
  unfold sdiffKeyFunc
  split_ifs with h
  · rfl
  · rw [sliceFrom_one_of_le cmd (by omega)]; rfl

theorem sdiffstoreKeyFunc_eq (cmd : List String) :
    sdiffstoreKeyFunc cmd =
      if cmd.length < 3 then Outcome.err KeyExtractionFuncResult.zero WrongArgsResponse
      else Outcome.ok ⟨[], cmd.drop 2, (cmd.take 2).drop 1⟩ := by
  unfold sdiffstoreKeyFunc
  split_ifs with h
  · rfl
  · rw [sliceFrom_two_of_le cmd (by omega), sliceExpr_one_two_of_le cmd (by omega)]; rfl

theorem sinterKeyFunc_eq (cmd : List String) :
    sinterKeyFunc cmd =
      if cmd.length < 2 then Outcome.err KeyExtractionFuncResult.zero WrongArgsResponse
      else Outcome.ok ⟨[], cmd.drop 1, []⟩ := by
  unfold sinterKeyFunc
  split_ifs with h
  · rfl
  · rw [sliceFrom_one_of_le cmd (by omega)]; rfl

theorem sinterstoreKeyFunc_eq (cmd : List String) :
    sinterstoreKeyFunc cmd =
      if cmd.length < 3 then Outcome.err KeyExtractionFuncResult.zero WrongArgsResponse
      else Outcome.ok ⟨[], cmd.drop 2, (cmd.take 2).drop 1⟩ := by
  unfold sinterstoreKeyFunc
  split_ifs with h
  · rfl
  · rw [sliceFrom_two_of_le cmd (by omega), sliceExpr_one_two_of_le cmd (by omega)]; rfl

theorem sismemberKeyFunc_eq (cmd : List String) :
    sismemberKeyFunc cmd =
      if cmd.length ≠ 3 then Outcome.err KeyExtractionFuncResult.zero WrongArgsResponse
      else Outcome.ok ⟨[], cmd.drop 1, []⟩ := by
  unfold sismemberKeyFunc
  split_ifs with h
  · rfl
  · rw [sliceFrom_one_of_le cmd (by omega)]; rfl

theorem smembersKeyFunc_eq (cmd : List String) :
    smembersKeyFunc cmd =
      if cmd.length ≠ 2 then Outcome.err KeyExtractionFuncResult.zero WrongArgsResponse
      else Outcome.ok ⟨[], cmd.drop 1, []⟩ := by
  unfold smembersKeyFunc
  split_ifs with h
  · rfl
  · rw [sliceFrom_one_of_le cmd (by omega)]; rfl

theorem smismemberKeyFunc_eq (cmd : List String) :
    smismemberKeyFunc cmd =
      if cmd.length < 3 then Outcome.err KeyExtractionFuncResult.zero WrongArgsResponse
      else Outcome.ok ⟨[], (cmd.take 2).drop 1, []⟩ := by
  unfold smismemberKeyFunc
  split_ifs with h
  · rfl
  · rw [sliceExpr_one_two_of_le cmd (by omega)]; rfl

theorem smoveKeyFunc_eq (cmd : List String) :
    smoveKeyFunc cmd =
      if cmd.length ≠ 4 then Outcome.err KeyExtractionFuncResult.zero WrongArgsResponse
      else Outcome.ok ⟨[], [], (cmd.take 3).drop 1⟩ := by
  unfold smoveKeyFunc
  split_ifs with h
  · rfl
  · rw [sliceExpr_one_three_of_le cmd (by omega)]; rfl

theorem spopKeyFunc_eq (cmd : List String) :
    spopKeyFunc cmd =
      if cmd.length < 2 ∨ cmd.length > 3 then
        Outcome.err KeyExtractionFuncResult.zero WrongArgsResponse
      else Outcome.ok ⟨[], [], (cmd.take 2).drop 1⟩ := by
  unfold spopKeyFunc
  split_ifs with h
  · rfl
  · rw [sliceExpr_one_two_of_le cmd (by omega)]; rfl

theorem srandmemberKeyFunc_eq (cmd : List String) :
    srandmemberKeyFunc cmd =
      if cmd.length < 2 ∨ cmd.length > 3 then
        Outcome.err KeyExtractionFuncResult.zero WrongArgsResponse
      else Outcome.ok ⟨[], (cmd.take 2).drop 1, []⟩ := by
  unfold srandmemberKeyFunc
  split_ifs with h
  · rfl
  · rw [sliceExpr_one_two_of_le cmd (by omega)]; rfl

theorem sremKeyFunc_eq (cmd : List String) :
    sremKeyFunc cmd =
      if cmd.length < 3 then Outcome.err KeyExtractionFuncResult.zero WrongArgsResponse
      else Outcome.ok ⟨[], [], (cmd.take 2).drop 1⟩ := by
  unfold sremKeyFunc
  split_ifs with h
  · rfl
  · rw [sliceExpr_one_two_of_le cmd (by omega)]; rfl

theorem sunionKeyFunc_eq (cmd : List String) :
    sunionKeyFunc cmd =
      if cmd.length < 2 then Outcome.err KeyExtractionFuncResult.zero WrongArgsResponse
      else Outcome.ok ⟨[], cmd.drop 1, []⟩ := by
  unfold sunionKeyFunc
  split_ifs with h
  · rfl
  · rw [sliceFrom_one_of_le cmd (by omega)]; rfl

theorem sunionstoreKeyFunc_eq (cmd : List String) :
    sunionstoreKeyFunc cmd =
      if cmd.length < 3 then Outcome.err KeyExtractionFuncResult.zero WrongArgsResponse
      else Outcome.ok ⟨[], cmd.drop 2, (cmd.take 2).drop 1⟩ := by
  unfold sunionstoreKeyFunc
  split_ifs with h
  · rfl
  · rw [sliceFrom_two_of_le cmd (by omega), sliceExpr_one_two_of_le cmd (by omega)]; rfl

/-! ## SINTERCARD and its keyword scan -/

/-- With the keyword in the verb position the scan returns index 0 and `cmd[1:0]` panics. -/
theorem sintercardKeyFunc_verb_limit (v : String) (rest : List String) (hv : isLimit v = true)
    (hrest : rest ≠ []) : sintercardKeyFunc (v :: rest) = Outcome.panic := by
  have hlen : ¬ (v :: rest).length < 2 := by
    cases rest with
    | nil => exact absurd rfl hrest
    | cons a as => simp
  have hidx : IndexFunc (v :: rest) isLimit = 0 := by
    simp [IndexFunc, indexFuncFrom, hv]
  unfold sintercardKeyFunc
  rw [if_neg hlen]
  simp only [hidx]
  rw [if_neg (by decide)]
  have hs : sliceExpr (v :: rest) 1 0 = none := by
    unfold sliceExpr
    rw [if_neg (by omega)]
  rw [hs]
  rfl

/-- Without the keyword anywhere, every argument token is a read key. -/
theorem sintercardKeyFunc_no_limit (cmd : List String) (hlen : 2 ≤ cmd.length)
    (hno : ∀ t ∈ cmd, isLimit t = false) :
    sintercardKeyFunc cmd = Outcome.ok ⟨[], cmd.drop 1, []⟩ := by
  have hidx : IndexFunc cmd isLimit = -1 := indexFuncFrom_of_forall_false isLimit cmd 0 hno
  unfold sintercardKeyFunc
  rw [if_neg (by omega)]
  simp only [hidx]
  rw [if_pos trivial, sliceFrom_one_of_le cmd (by omega)]
  rfl

/-- With the first keyword after a non-empty prefix, the read keys are the prefix without
the verb. -/
theorem sintercardKeyFunc_at_limit (v : String) (pre : List String) (kw : String)
    (post : List String) (hv : isLimit v = false) (hpre : ∀ t ∈ pre, isLimit t = false)
    (hkw : isLimit kw = true) :
    sintercardKeyFunc (v :: pre ++ kw :: post) = Outcome.ok ⟨[], pre, []⟩ := by
  have hall : ∀ t ∈ v :: pre, isLimit t = false := by
    intro t ht
    rcases List.mem_cons.mp ht with rfl | ht
    · exact hv
    · exact hpre t ht
  have hidx : IndexFunc (v :: pre ++ kw :: post) isLimit = ((pre.length + 1 : Nat) : Int) := by
    have h := indexFuncFrom_append isLimit (v :: pre) kw post 0 hall hkw
    simpa [IndexFunc] using h
  have hlen : ¬ (v :: pre ++ kw :: post).length < 2 := by
    simp only [List.cons_append, List.length_cons, List.length_append]
    omega
  have hne : ((pre.length + 1 : Nat) : Int) ≠ -1 := by omega
  have hs : sliceExpr (v :: pre ++ kw :: post) 1 ((pre.length + 1 : Nat) : Int) = some pre := by
    have h := sliceExpr_natCast (v :: pre ++ kw :: post) 1 (pre.length + 1) (by omega)
      (by simp)
    simpa using h
  unfold sintercardKeyFunc
  rw [if_neg hlen]
  simp only [hidx]
  rw [if_neg hne, hs]
  rfl


/-! ## The comparison of a token with the keyword -/

theorem char_eq_of_toNat (a b : Char) (h : a.toNat = b.toNat) : a = b := by
  rw [← Char.ofNat_toNat a, ← Char.ofNat_toNat b, h]

theorem toNat_ofNat_capital (n : Nat) (h1 : 65 ≤ n) (h2 : n ≤ 90) :
    (Char.ofNat (n + 32)).toNat = n + 32 := by
  interval_cases n <;> rfl

theorem toLower_eq_self (c : Char) (h : ¬ (65 ≤ c.toNat ∧ c.toNat ≤ 90)) : c.toLower = c := by
  unfold Char.toLower
  simp only [ge_iff_le]
  rw [if_neg h]

theorem toNat_toLower_capital (c : Char) (h1 : 65 ≤ c.toNat) (h2 : c.toNat ≤ 90) :
    c.toLower.toNat = c.toNat + 32 := by
  unfold Char.toLower
  simp only [ge_iff_le]
  rw [if_pos ⟨h1, h2⟩]
  exact toNat_ofNat_capital c.toNat h1 h2

/-- The rune comparison of `strings.EqualFold` against a lower-case ASCII letter other than k
and s: a rune matches exactly when it is that letter or its capital. -/
theorem foldRune_lower_letter (c t : Char) (ht1 : 0x61 ≤ t.toNat) (ht2 : t.toNat ≤ 0x7A)
    (hk : t.toNat ≠ 0x6B) (hs : t.toNat ≠ 0x73) : foldRune c t = true ↔ c.toLower = t := by
  unfold foldRune
  by_cases hct : t = c
  · subst hct
    rw [if_pos rfl]
    exact ⟨fun _ => toLower_eq_self t (by omega), fun _ => rfl⟩
  · rw [if_neg hct]
    by_cases hlt : t.toNat < c.toNat
    · simp only [hlt, if_true]
      have hc : c.toLower = c := toLower_eq_self c (by omega)
      rw [hc]
      constructor
      · intro h
        exfalso
        split_ifs at h with h80
        · simp only [decide_eq_true_eq] at h
          omega
        · simp only [foldGeneral, Bool.decide_and, Bool.decide_or, Bool.or_eq_true,
            Bool.and_eq_true, decide_eq_true_eq] at h
          omega
      · intro h
        exact absurd h.symm hct
    · simp only [hlt, if_false]
      rw [if_pos (by omega)]
      simp only [decide_eq_true_eq]
      constructor
      · rintro ⟨h1, h2, h3⟩
        apply char_eq_of_toNat
        rw [toNat_toLower_capital c h1 h2, h3]
      · intro h
        by_cases hcap : 65 ≤ c.toNat ∧ c.toNat ≤ 90
        · have := toNat_toLower_capital c hcap.1 hcap.2
          rw [h] at this
          exact ⟨hcap.1, hcap.2, this⟩
        · rw [toLower_eq_self c hcap] at h
          exact absurd h.symm hct

/-- The closure of the keyword scan accepts exactly the case spellings of the keyword. -/
theorem isLimit_iff_caseSpelling (s : String) :
    EqualFold s "limit" = true ↔ isCaseSpellingOfLimit s = true := by
  have hl := fun c => foldRune_lower_letter c 'l' (by decide) (by decide) (by decide) (by decide)
  have hi := fun c => foldRune_lower_letter c 'i' (by decide) (by decide) (by decide) (by decide)
  have hm := fun c => foldRune_lower_letter c 'm' (by decide) (by decide) (by decide) (by decide)
  have ht := fun c => foldRune_lower_letter c 't' (by decide) (by decide) (by decide) (by decide)
  have hdata : "limit".data = ['l', 'i', 'm', 'i', 't'] := rfl
  unfold EqualFold isCaseSpellingOfLimit
  rw [hdata]
  rcases s.data with _ | ⟨a, _ | ⟨b, _ | ⟨c, _ | ⟨d, _ | ⟨e, _ | ⟨f, rest⟩⟩⟩⟩⟩⟩ <;>
    simp [equalFoldRunes, hl, hi, hm, ht]

/-! ## Claims about SINTERCARD with a limit clause -/

/-- C1. With a limit clause SINTERCARD classifies only the tokens strictly before the keyword:
when the command has at least two tokens, its verb is not case-insensitively equal to "limit"
and `i` is the smallest index whose token is, the rule succeeds with the read keys
`cmd[1], ..., cmd[i-1]` (exactly `i - 1` of them, the `j`-th being `cmd[j+1]`), no write keys
and no channels; the keyword and the tokens after it are at no position of the read keys, and
no read key is a spelling of the keyword. -/
theorem sintercard_limit_clause (cmd : List String) (i : Nat) (kw : String)
    (hlen : 2 ≤ cmd.length)
    (hverb : ∀ v, cmd[0]? = some v → EqualFold v "limit" = false)
    (hkw : cmd[i]? = some kw) (hfold : EqualFold kw "limit" = true)
    (hmin : ∀ j t, j < i → cmd[j]? = some t → EqualFold t "limit" = false) :
    sintercardKeyFunc cmd = Outcome.ok ⟨[], (cmd.take i).drop 1, []⟩ ∧
      ((cmd.take i).drop 1).length = i - 1 ∧
      (∀ j, j + 1 < i → ((cmd.take i).drop 1)[j]? = cmd[j + 1]?) ∧
      ∀ k ∈ (cmd.take i).drop 1, EqualFold k "limit" = false := by
  have hi : i < cmd.length := by
    rcases Nat.lt_or_ge i cmd.length with h | h
    · exact h
    · rw [List.getElem?_eq_none h] at hkw; cases hkw
  have hipos : 0 < i := by
    rcases Nat.eq_zero_or_pos i with h | h
    · subst h
      rw [hverb kw hkw] at hfold
      cases hfold
    · exact h
  have hsplit : cmd = cmd.take i ++ kw :: cmd.drop (i + 1) := by
    have h1 : cmd.drop i = kw :: cmd.drop (i + 1) := by
      rw [List.drop_eq_getElem_cons hi]
      have h2 : cmd[i]? = some cmd[i] := List.getElem?_eq_getElem hi
      rw [h2] at hkw
      rw [Option.some.inj hkw]
    rw [← h1, List.take_append_drop]
  have hpre : ∀ t ∈ cmd.take i, isLimit t = false := by
    intro t ht
    obtain ⟨j, hj, rfl⟩ := List.getElem_of_mem ht
    have hji : j < i := by
      have := hj
      simp only [List.length_take] at this
      omega
    apply hmin j _ hji
    rw [List.getElem_take, List.getElem?_eq_getElem]
  refine ⟨?_, ?_, ?_, fun k hk => hpre k (List.mem_of_mem_drop hk)⟩
  · cases hc : cmd with
    | nil => rw [hc] at hlen; simp at hlen
    | cons v rest =>
      have hv : isLimit v = false := hverb v (by rw [hc]; simp)
      obtain ⟨n, rfl⟩ : ∃ n, i = n + 1 := ⟨i - 1, by omega⟩
      have hpre2 : ∀ t ∈ rest.take n, isLimit t = false := by
        intro t ht
        apply hpre t
        rw [hc]
        simp [ht]
      have hs2 : v :: rest = v :: rest.take n ++ kw :: rest.drop (n + 1) := by
        have := hsplit
        rw [hc] at this
        simpa using this
      have key := sintercardKeyFunc_at_limit v (rest.take n) kw (rest.drop (n + 1)) hv hpre2 hfold
      rw [← hs2] at key
      simpa using key
  · simp only [List.length_drop, List.length_take]
    omega
  · intro j hj
    rw [List.getElem?_drop, List.getElem?_take_of_lt (by omega), Nat.add_comm]

/-- C2. The keyword scan of SINTERCARD is case-insensitive: the scan takes a token for the
keyword exactly when the token is a case spelling of it, `limit` with each letter in upper or
lower case; and so for key tokens `ks` none of which is a case spelling, any tail, and any two
case spellings `kw` and `kw2`, the commands `SINTERCARD ks kw tail` and
`SINTERCARD ks kw2 tail` give the same outcome, the success with read keys `ks`, no write keys
and no channels. -/
theorem sintercard_keyword_case_insensitive (ks tail : List String) (kw kw2 : String)
    (hks : ∀ k ∈ ks, isCaseSpellingOfLimit k = false)
    (hkw : isCaseSpellingOfLimit kw = true) (hkw2 : isCaseSpellingOfLimit kw2 = true) :
    (∀ s, EqualFold s "limit" = true ↔ isCaseSpellingOfLimit s = true) ∧
      sintercardKeyFunc ("SINTERCARD" :: ks ++ kw :: tail)
        = sintercardKeyFunc ("SINTERCARD" :: ks ++ kw2 :: tail) ∧
      sintercardKeyFunc ("SINTERCARD" :: ks ++ kw :: tail) = Outcome.ok ⟨[], ks, []⟩ := by
  have hv : isLimit "SINTERCARD" = false := by decide
  have hks2 : ∀ k ∈ ks, isLimit k = false := by
    intro k hk
    cases hf : isLimit k with
    | false => rfl
    | true =>
      have h1 := (isLimit_iff_caseSpelling k).mp hf
      rw [hks k hk] at h1
      cases h1
  have h1 := sintercardKeyFunc_at_limit "SINTERCARD" ks kw tail hv hks2
    ((isLimit_iff_caseSpelling kw).mpr hkw)
  have h2 := sintercardKeyFunc_at_limit "SINTERCARD" ks kw2 tail hv hks2
    ((isLimit_iff_caseSpelling kw2).mpr hkw2)
  exact ⟨isLimit_iff_caseSpelling, h1.trans h2.symm, h1⟩

/-- C1 at the command SINTERCARD s1 s2 LIMIT 5: the keyword is at index 3, no earlier token is
the keyword, and the read keys are s1 and s2. -/
theorem sintercard_limit_clause_witness :
    (["SINTERCARD", "s1", "s2", "LIMIT", "5"] : List String)[3]? = some "LIMIT" ∧
      EqualFold "LIMIT" "limit" = true ∧
      EqualFold "SINTERCARD" "limit" = false ∧
      sintercardKeyFunc ["SINTERCARD", "s1", "s2", "LIMIT", "5"]
        = Outcome.ok ⟨[], ["s1", "s2"], []⟩ := by
  have h := sintercard_limit_clause ["SINTERCARD", "s1", "s2", "LIMIT", "5"] 3 "LIMIT"
    (by decide)
    (by intro v hv; simp at hv; subst hv; decide)
    (by decide) (by decide)
    (by
      intro j t hj ht
      interval_cases j <;> simp at ht <;> subst ht <;> decide)
  exact ⟨by decide, by decide, by decide, h.1⟩

/-- C2 at the keys s1, s2, the tail 5 and the spellings LIMIT and LiMiT; the tokens limits and
limi are no spellings of the keyword. -/
theorem sintercard_keyword_case_insensitive_witness :
    isCaseSpellingOfLimit "LIMIT" = true ∧ isCaseSpellingOfLimit "LiMiT" = true ∧
      isCaseSpellingOfLimit "limits" = false ∧ isCaseSpellingOfLimit "limi" = false ∧
      sintercardKeyFunc ["SINTERCARD", "s1", "s2", "LIMIT", "5"]
        = sintercardKeyFunc ["SINTERCARD", "s1", "s2", "LiMiT", "5"] ∧
      sintercardKeyFunc ["SINTERCARD", "s1", "s2", "LIMIT", "5"]
        = Outcome.ok ⟨[], ["s1", "s2"], []⟩ :=
  ⟨by decide, by decide, by decide, by decide,
    (sintercard_keyword_case_insensitive ["s1", "s2"] ["5"] "LIMIT" "LiMiT"
      (by decide) (by decide) (by decide)).2⟩

/-! ## Claims about the fixed and variadic shapes -/

/-- C3. Destination and variadic sources: each of SDIFFSTORE, SINTERSTORE and SUNIONSTORE
succeeds exactly on the commands of at least three tokens, and on success the write keys are
`[cmd[1]]`, the read keys are all the tokens from index 2 on, in order, and there are no
channels. -/
theorem store_shape (cmd : List String) :
    ((Succeeds (sdiffstoreKeyFunc cmd) ↔ 3 ≤ cmd.length) ∧
      ∀ r, sdiffstoreKeyFunc cmd = Outcome.ok r →
        ∃ dst, cmd[1]? = some dst ∧ r = ⟨[], cmd.drop 2, [dst]⟩) ∧
    ((Succeeds (sinterstoreKeyFunc cmd) ↔ 3 ≤ cmd.length) ∧
      ∀ r, sinterstoreKeyFunc cmd = Outcome.ok r →
        ∃ dst, cmd[1]? = some dst ∧ r = ⟨[], cmd.drop 2, [dst]⟩) ∧
    ((Succeeds (sunionstoreKeyFunc cmd) ↔ 3 ≤ cmd.length) ∧
      ∀ r, sunionstoreKeyFunc cmd = Outcome.ok r →
        ∃ dst, cmd[1]? = some dst ∧ r = ⟨[], cmd.drop 2, [dst]⟩) := by
  rcases cmd with _ | ⟨v, _ | ⟨k, _ | ⟨a, rest⟩⟩⟩ <;>
    simp_arith [Succeeds, sdiffstoreKeyFunc_eq, sinterstoreKeyFunc_eq, sunionstoreKeyFunc_eq]

/-- C3 at the command SDIFFSTORE dst s1 s2. -/
theorem store_shape_witness :
    sdiffstoreKeyFunc ["SDIFFSTORE", "dst", "s1", "s2"]
      = Outcome.ok ⟨[], ["s1", "s2"], ["dst"]⟩ := by
  obtain ⟨⟨hs, hr⟩, _⟩ := store_shape ["SDIFFSTORE", "dst", "s1", "s2"]
  obtain ⟨r, h⟩ := hs.mpr (by decide)
  obtain ⟨dst, hd, hr2⟩ := hr r h
  have hdst : dst = "dst" := by simpa using hd.symm
  rw [h, hr2, hdst]
  rfl

/-- C4. Fixed write-one: SADD and SREM each succeed exactly on the commands of at least three
tokens, and on success the write keys are `[cmd[1]]` and there are no read keys and no
channels, so that no member token at index 2 or later is at a position of the keys. -/
theorem write_one_shape (cmd : List String) :
    ((Succeeds (saddKeyFunc cmd) ↔ 3 ≤ cmd.length) ∧
      ∀ r, saddKeyFunc cmd = Outcome.ok r → ∃ k, cmd[1]? = some k ∧ r = ⟨[], [], [k]⟩) ∧
    ((Succeeds (sremKeyFunc cmd) ↔ 3 ≤ cmd.length) ∧
      ∀ r, sremKeyFunc cmd = Outcome.ok r → ∃ k, cmd[1]? = some k ∧ r = ⟨[], [], [k]⟩) := by
  rcases cmd with _ | ⟨v, _ | ⟨k, _ | ⟨a, rest⟩⟩⟩ <;>
    simp_arith [Succeeds, saddKeyFunc_eq, sremKeyFunc_eq]

/-- C4 at the command SADD k a b. -/
theorem write_one_shape_witness :
    saddKeyFunc ["SADD", "k", "a", "b"] = Outcome.ok ⟨[], [], ["k"]⟩ := by
  obtain ⟨⟨hs, hr⟩, _⟩ := write_one_shape ["SADD", "k", "a", "b"]
  obtain ⟨r, h⟩ := hs.mpr (by decide)
  obtain ⟨k, hk, hr2⟩ := hr r h
  have hk2 : k = "k" := by simpa using hk.symm
  rw [h, hr2, hk2]

/-- C5. Two fixed write keys: SMOVE succeeds exactly on the commands of four tokens, and on
success the write keys are `[cmd[1], cmd[2]]`, source then destination, and there are no read
keys and no channels, so that the member token `cmd[3]` is at no position of the keys. -/
theorem smove_shape (cmd : List String) :
    (Succeeds (smoveKeyFunc cmd) ↔ cmd.length = 4) ∧
      ∀ r, smoveKeyFunc cmd = Outcome.ok r →
        ∃ src dst, cmd[1]? = some src ∧ cmd[2]? = some dst ∧ r = ⟨[], [], [src, dst]⟩ := by
  rcases cmd with _ | ⟨v, _ | ⟨a, _ | ⟨b, _ | ⟨m, _ | ⟨x, rest⟩⟩⟩⟩⟩ <;>
    simp_arith [Succeeds, smoveKeyFunc_eq]

/-- C5 at the command SMOVE src dst member. -/
theorem smove_shape_witness :
    smoveKeyFunc ["SMOVE", "src", "dst", "member"] = Outcome.ok ⟨[], [], ["src", "dst"]⟩ := by
  obtain ⟨hs, hr⟩ := smove_shape ["SMOVE", "src", "dst", "member"]
  obtain ⟨r, h⟩ := hs.mpr (by decide)
  obtain ⟨src, dst, h1, h2, hr2⟩ := hr r h
  have e1 : src = "src" := by simpa using h1.symm
  have e2 : dst = "dst" := by simpa using h2.symm
  rw [h, hr2, e1, e2]

/-- C6. Variadic read: SDIFF, SINTER and SUNION each succeed exactly on the commands of at
least two tokens, and on success the read keys are all the argument tokens `cmd[1:]`, in
order, with no write keys and no channels; SINTERCARD returns that same result on every
command of at least two tokens none of which is case-insensitively equal to "limit". -/
theorem variadic_read_shape (cmd : List String) :
    ((Succeeds (sdiffKeyFunc cmd) ↔ 2 ≤ cmd.length) ∧
      ∀ r, sdiffKeyFunc cmd = Outcome.ok r → r = ⟨[], cmd.drop 1, []⟩) ∧
    ((Succeeds (sinterKeyFunc cmd) ↔ 2 ≤ cmd.length) ∧
      ∀ r, sinterKeyFunc cmd = Outcome.ok r → r = ⟨[], cmd.drop 1, []⟩) ∧
    ((Succeeds (sunionKeyFunc cmd) ↔ 2 ≤ cmd.length) ∧
      ∀ r, sunionKeyFunc cmd = Outcome.ok r → r = ⟨[], cmd.drop 1, []⟩) ∧
    (2 ≤ cmd.length → (∀ t ∈ cmd, EqualFold t "limit" = false) →
      sintercardKeyFunc cmd = Outcome.ok ⟨[], cmd.drop 1, []⟩ ∧
        sintercardKeyFunc cmd = sdiffKeyFunc cmd) := by
  refine ⟨?_, ?_, ?_, ?_⟩
  · rcases cmd with _ | ⟨v, _ | ⟨k, rest⟩⟩ <;> simp_arith [Succeeds, sdiffKeyFunc_eq]
  · rcases cmd with _ | ⟨v, _ | ⟨k, rest⟩⟩ <;> simp_arith [Succeeds, sinterKeyFunc_eq]
  · rcases cmd with _ | ⟨v, _ | ⟨k, rest⟩⟩ <;> simp_arith [Succeeds, sunionKeyFunc_eq]
  · intro hlen hno
    have h := sintercardKeyFunc_no_limit cmd hlen hno
    refine ⟨h, ?_⟩
    rw [h, sdiffKeyFunc_eq, if_neg (by omega)]

/-- C6 at the command SINTERCARD s1 s2, which has no limit clause. -/
theorem variadic_read_shape_witness :
    sintercardKeyFunc ["SINTERCARD", "s1", "s2"] = Outcome.ok ⟨[], ["s1", "s2"], []⟩ ∧
      sdiffKeyFunc ["SDIFF", "s1", "s2"] = Outcome.ok ⟨[], ["s1", "s2"], []⟩ := by
  refine ⟨((variadic_read_shape ["SINTERCARD", "s1", "s2"]).2.2.2
    (by decide) (by decide)).1, ?_⟩
  obtain ⟨⟨hs, hr⟩, _⟩ := variadic_read_shape ["SDIFF", "s1", "s2"]
  obtain ⟨r, h⟩ := hs.mpr (by decide)
  rw [h, hr r h]
  rfl

/-- C10. Bounded-optional: SPOP and SRANDMEMBER each succeed exactly on the commands of two or
three tokens; on success SPOP returns the write keys `[cmd[1]]` and no read keys, SRANDMEMBER
the read keys `[cmd[1]]` and no write keys, both with no channels, so that the optional count
token `cmd[2]` is at no position of the keys. -/
theorem bounded_optional_shape (cmd : List String) :
    ((Succeeds (spopKeyFunc cmd) ↔ 2 ≤ cmd.length ∧ cmd.length ≤ 3) ∧
      ∀ r, spopKeyFunc cmd = Outcome.ok r → ∃ k, cmd[1]? = some k ∧ r = ⟨[], [], [k]⟩) ∧
    ((Succeeds (srandmemberKeyFunc cmd) ↔ 2 ≤ cmd.length ∧ cmd.length ≤ 3) ∧
      ∀ r, srandmemberKeyFunc cmd = Outcome.ok r →
        ∃ k, cmd[1]? = some k ∧ r = ⟨[], [k], []⟩) := by
  rcases cmd with _ | ⟨v, _ | ⟨k, _ | ⟨c, _ | ⟨x, rest⟩⟩⟩⟩ <;>
    simp_arith [Succeeds, spopKeyFunc_eq, srandmemberKeyFunc_eq]

/-! ## Claims about the sixteen rules together -/

/-- Every rule but SINTERCARD is an arity check followed by a result. -/
theorem run_eq_of_ne_sintercard (r : Rule) (cmd : List String) (hr : r ≠ Rule.sintercard) :
    r.run cmd = Outcome.err KeyExtractionFuncResult.zero WrongArgsResponse ∨
      ∃ res, r.run cmd = Outcome.ok res := by
  cases r
  case sintercard => exact absurd rfl hr
  all_goals
    simp only [Rule.run, saddKeyFunc_eq, scardKeyFunc_eq, sdiffKeyFunc_eq, sdiffstoreKeyFunc_eq,
      sinterKeyFunc_eq, sinterstoreKeyFunc_eq, sismemberKeyFunc_eq, smembersKeyFunc_eq,
      smismemberKeyFunc_eq, smoveKeyFunc_eq, spopKeyFunc_eq, srandmemberKeyFunc_eq,
      sremKeyFunc_eq, sunionKeyFunc_eq, sunionstoreKeyFunc_eq]
    split_ifs
    · exact Or.inl rfl
    · exact Or.inr ⟨_, rfl⟩

/-- The outcomes of SINTERCARD: an arity error, a panic when the verb is the keyword, and a
result otherwise. -/
theorem sintercardKeyFunc_cases (cmd : List String) :
    (cmd.length < 2 ∧
        sintercardKeyFunc cmd = Outcome.err KeyExtractionFuncResult.zero WrongArgsResponse) ∨
      (2 ≤ cmd.length ∧ (∃ v, cmd[0]? = some v ∧ isLimit v = true) ∧
        sintercardKeyFunc cmd = Outcome.panic) ∨
      (2 ≤ cmd.length ∧ (∀ v, cmd[0]? = some v → isLimit v = false) ∧
        ∃ res, sintercardKeyFunc cmd = Outcome.ok res) := by
  rcases Nat.lt_or_ge cmd.length 2 with hlt | hge
  · left
    exact ⟨hlt, by simp [sintercardKeyFunc, hlt]⟩
  · right
    cases hc : cmd with
    | nil => rw [hc] at hge; simp at hge
    | cons v rest =>
      have hrest : rest ≠ [] := by
        intro h
        rw [hc, h] at hge
        simp at hge
      have hge2 : 2 ≤ (v :: rest).length := by rw [← hc]; exact hge
      cases hv : isLimit v with
      | true =>
        left
        exact ⟨hge2, ⟨v, by simp, hv⟩, sintercardKeyFunc_verb_limit v rest hv hrest⟩
      | false =>
        right
        refine ⟨hge2, ?_, ?_⟩
        · intro w hw
          simp at hw
          rw [← hw]
          exact hv
        · by_cases hidx : indexFuncFrom isLimit rest 0 = -1
          · have hall := forall_false_of_indexFuncFrom isLimit rest 0 (le_refl 0) hidx
            refine ⟨⟨[], (v :: rest).drop 1, []⟩,
              sintercardKeyFunc_no_limit (v :: rest) hge2 ?_⟩
            intro t ht
            rcases List.mem_cons.mp ht with rfl | ht
            · exact hv
            · exact hall t ht
          · obtain ⟨pre, x, post, hs, hpre, hx⟩ := indexFuncFrom_ne_neg_one isLimit rest 0
              (le_refl 0) hidx
            refine ⟨⟨[], pre, []⟩, ?_⟩
            rw [hs]
            exact sintercardKeyFunc_at_limit v pre x post hv hpre hx

/-- C7. Every one of the sixteen rules rejects every command shorter than its minimum token
count, the empty command included: it returns the validation error with the zero result, and
it does not succeed. -/
theorem short_command_rejected (r : Rule) (cmd : List String) (h : cmd.length < r.minTokens) :
    r.run cmd = Outcome.err KeyExtractionFuncResult.zero WrongArgsResponse ∧
      ¬ Succeeds (r.run cmd) := by
  have key : r.run cmd = Outcome.err KeyExtractionFuncResult.zero WrongArgsResponse := by
    cases r <;> simp only [Rule.minTokens] at h
    case sintercard => simp [Rule.run, sintercardKeyFunc, h]
    all_goals
      simp only [Rule.run, saddKeyFunc_eq, scardKeyFunc_eq, sdiffKeyFunc_eq,
        sdiffstoreKeyFunc_eq, sinterKeyFunc_eq, sinterstoreKeyFunc_eq, sismemberKeyFunc_eq,
        smembersKeyFunc_eq, smismemberKeyFunc_eq, smoveKeyFunc_eq, spopKeyFunc_eq,
        srandmemberKeyFunc_eq, sremKeyFunc_eq, sunionKeyFunc_eq, sunionstoreKeyFunc_eq]
      rw [if_pos (by omega)]
  refine ⟨key, ?_⟩
  rintro ⟨res, hres⟩
  rw [key] at hres
  cases hres

/-- C7 at SMOVE with three tokens and at SADD with the empty command. -/
theorem short_command_rejected_witness :
    Rule.smove.run ["SMOVE", "src", "dst"]
        = Outcome.err KeyExtractionFuncResult.zero WrongArgsResponse ∧
      Rule.sadd.run [] = Outcome.err KeyExtractionFuncResult.zero WrongArgsResponse :=
  ⟨(short_command_rejected Rule.smove ["SMOVE", "src", "dst"] (by decide)).1,
    (short_command_rejected Rule.sadd [] (by decide)).1⟩

/-- C8, evaluated where it fails: on the two-token command LIMIT 5 the keyword scan of
SINTERCARD stops at the verb, index 0, the slice expression `cmd[1:0]` is out of range, and the
rule panics: it returns neither a result nor a validation error. -/
theorem sintercard_panics_on_keyword_verb :
    IndexFunc ["LIMIT", "5"] isLimit = 0 ∧
      sliceExpr ["LIMIT", "5"] 1 0 = none ∧
      sintercardKeyFunc ["LIMIT", "5"] = Outcome.panic ∧
      (¬ Succeeds (Rule.sintercard.run ["LIMIT", "5"])) ∧
      ∀ res msg, Rule.sintercard.run ["LIMIT", "5"] ≠ Outcome.err res msg := by
  have h : sintercardKeyFunc ["LIMIT", "5"] = Outcome.panic := by decide
  refine ⟨by decide, by decide, h, ?_, ?_⟩
  · rintro ⟨res, hres⟩
    rw [Rule.run, h] at hres
    cases hres
  · intro res msg hres
    rw [Rule.run, h] at hres
    cases hres

/-- C9. Arity failures are uniform and carry no partial result: whenever one of the sixteen
rules returns an error, its message is the one constant `WrongArgsResponse` and the result
beside it is the zero value, with no channels, no read keys and no write keys. -/
theorem arity_error_uniform (r : Rule) (cmd : List String) (res : KeyExtractionFuncResult)
    (msg : String) (h : r.run cmd = Outcome.err res msg) :
    msg = WrongArgsResponse ∧ res = KeyExtractionFuncResult.zero ∧
      res.Channels = [] ∧ res.ReadKeys = [] ∧ res.WriteKeys = [] := by
  have key : msg = WrongArgsResponse ∧ res = KeyExtractionFuncResult.zero := by
    by_cases hr : r = Rule.sintercard
    · subst hr
      rcases sintercardKeyFunc_cases cmd with ⟨_, h1⟩ | ⟨_, _, h1⟩ | ⟨_, _, r1, h1⟩
      · rw [Rule.run, h1] at h
        injection h with h2 h3
        exact ⟨h3.symm, h2.symm⟩
      · rw [Rule.run, h1] at h
        cases h
      · rw [Rule.run, h1] at h
        cases h
    · rcases run_eq_of_ne_sintercard r cmd hr with h1 | ⟨r1, h1⟩
      · rw [h1] at h
        injection h with h2 h3
        exact ⟨h3.symm, h2.symm⟩
      · rw [h1] at h
        cases h
  obtain ⟨h1, h2⟩ := key
  subst h2
  exact ⟨h1, rfl, rfl, rfl, rfl⟩

/-- C9 at SADD with two tokens: the rule returns an error, and the theorem gives its message
and its empty result. -/
theorem arity_error_uniform_witness :
    Rule.sadd.run ["SADD", "k"] = Outcome.err KeyExtractionFuncResult.zero WrongArgsResponse ∧
      KeyExtractionFuncResult.zero.Channels = [] ∧
      KeyExtractionFuncResult.zero.ReadKeys = [] ∧
      KeyExtractionFuncResult.zero.WriteKeys = [] :=
  ⟨by decide,
    (arity_error_uniform Rule.sadd ["SADD", "k"] KeyExtractionFuncResult.zero
      WrongArgsResponse (by decide)).2.2⟩


/-! ## The keys of an accepted command -/

/-- The result of SINTERCARD when it succeeds: all argument tokens when no token is the
keyword, and the tokens between the verb and the first keyword otherwise. -/
theorem sintercardKeyFunc_ok_form (cmd : List String) (res : KeyExtractionFuncResult)
    (h : sintercardKeyFunc cmd = Outcome.ok res) :
    2 ≤ cmd.length ∧
      (res = ⟨[], cmd.drop 1, []⟩ ∨
        ∃ v pre kw post, cmd = v :: pre ++ kw :: post ∧ isLimit v = false ∧
          (∀ t ∈ pre, isLimit t = false) ∧ isLimit kw = true ∧ res = ⟨[], pre, []⟩) := by
  rcases Nat.lt_or_ge cmd.length 2 with hlt | hge
  · simp [sintercardKeyFunc, hlt] at h
  · refine ⟨hge, ?_⟩
    cases hc : cmd with
    | nil => rw [hc] at hge; simp at hge
    | cons v rest =>
      rw [hc] at h hge
      have hrest : rest ≠ [] := by
        intro h0
        rw [h0] at hge
        simp at hge
      cases hv : isLimit v with
      | true =>
        rw [sintercardKeyFunc_verb_limit v rest hv hrest] at h
        cases h
      | false =>
        by_cases hidx : indexFuncFrom isLimit rest 0 = -1
        · have hall := forall_false_of_indexFuncFrom isLimit rest 0 (le_refl 0) hidx
          have hall2 : ∀ t ∈ v :: rest, isLimit t = false := by
            intro t ht
            rcases List.mem_cons.mp ht with rfl | ht
            · exact hv
            · exact hall t ht
          rw [sintercardKeyFunc_no_limit (v :: rest) hge hall2] at h
          injection h with h
          exact Or.inl h.symm
        · obtain ⟨pre, x, post, hs, hpre, hx⟩ := indexFuncFrom_ne_neg_one isLimit rest 0
            (le_refl 0) hidx
          subst hs
          have key := sintercardKeyFunc_at_limit v pre x post hv hpre hx
          rw [List.cons_append] at key
          rw [key] at h
          injection h with h
          exact Or.inr ⟨v, pre, x, post, rfl, hv, hpre, hx, h.symm⟩

/-- The keys of an accepted command: no channels, and the write keys followed by the read
keys are the first `n` argument tokens; `n` is zero only for SINTERCARD with the keyword as
its first argument. -/
theorem run_ok_keys (r : Rule) (cmd : List String) (res : KeyExtractionFuncResult)
    (h : r.run cmd = Outcome.ok res) :
    res.Channels = [] ∧ 2 ≤ cmd.length ∧
      ∃ n, res.WriteKeys ++ res.ReadKeys = (cmd.drop 1).take n ∧
        (n = 0 → r = Rule.sintercard ∧ ∃ kw, cmd[1]? = some kw ∧ isLimit kw = true) := by
  cases r
  case sintercard =>
    obtain ⟨hlen, hres | ⟨v, pre, kw, post, hc, hv, hpre, hkw, hres⟩⟩ :=
      sintercardKeyFunc_ok_form cmd res h
    · subst hres
      refine ⟨rfl, hlen, cmd.length, by simp, ?_⟩
      intro h0
      omega
    · subst hres hc
      refine ⟨rfl, hlen, pre.length, by simp, ?_⟩
      intro h0
      have hnil : pre = [] := List.length_eq_zero.mp h0
      subst hnil
      exact ⟨rfl, kw, by simp, hkw⟩
  all_goals
    simp only [Rule.run, saddKeyFunc_eq, scardKeyFunc_eq, sdiffKeyFunc_eq, sdiffstoreKeyFunc_eq,
      sinterKeyFunc_eq, sinterstoreKeyFunc_eq, sismemberKeyFunc_eq, smembersKeyFunc_eq,
      smismemberKeyFunc_eq, smoveKeyFunc_eq, spopKeyFunc_eq, srandmemberKeyFunc_eq,
      sremKeyFunc_eq, sunionKeyFunc_eq, sunionstoreKeyFunc_eq] at h
    split_ifs at h with hc
    injection h with h
    subst h
    refine ⟨rfl, by omega, ?_⟩
    first
    | (refine ⟨1, ?_, by omega⟩
       simp [List.drop_take]
       done)
    | (refine ⟨2, ?_, by omega⟩
       simp [List.drop_take]
       done)
    | (refine ⟨cmd.length, ?_, by omega⟩
       simp
       done)
    | (refine ⟨cmd.length, ?_, by omega⟩
       rcases cmd with _ | ⟨v, _ | ⟨k, rest⟩⟩ <;> simp)

/-! ## Claims about the single-key rules and the keys of accepted commands -/

/-- C11. Fixed read-one: SCARD and SMEMBERS each succeed exactly on the commands of two
tokens, a command with extra tokens being rejected with the validation error and not
truncated, and on success the read keys are `[cmd[1]]` with no write keys and no channels. -/
theorem read_one_shape (cmd : List String) :
    ((Succeeds (scardKeyFunc cmd) ↔ cmd.length = 2) ∧
      (cmd.length ≠ 2 →
        scardKeyFunc cmd = Outcome.err KeyExtractionFuncResult.zero WrongArgsResponse) ∧
      ∀ r, scardKeyFunc cmd = Outcome.ok r → ∃ k, cmd[1]? = some k ∧ r = ⟨[], [k], []⟩) ∧
    ((Succeeds (smembersKeyFunc cmd) ↔ cmd.length = 2) ∧
      (cmd.length ≠ 2 →
        smembersKeyFunc cmd = Outcome.err KeyExtractionFuncResult.zero WrongArgsResponse) ∧
      ∀ r, smembersKeyFunc cmd = Outcome.ok r → ∃ k, cmd[1]? = some k ∧ r = ⟨[], [k], []⟩) := by
  rcases cmd with _ | ⟨v, _ | ⟨k, _ | ⟨x, rest⟩⟩⟩ <;>
    simp_arith [Succeeds, scardKeyFunc_eq, smembersKeyFunc_eq]

/-- C11 at SCARD k, which is accepted, and at SCARD k extra, which is rejected. -/
theorem read_one_shape_witness :
    scardKeyFunc ["SCARD", "k"] = Outcome.ok ⟨[], ["k"], []⟩ ∧
      scardKeyFunc ["SCARD", "k", "extra"]
        = Outcome.err KeyExtractionFuncResult.zero WrongArgsResponse := by
  refine ⟨?_, (read_one_shape ["SCARD", "k", "extra"]).1.2.1 (by decide)⟩
  obtain ⟨⟨hs, _, hr⟩, _⟩ := read_one_shape ["SCARD", "k"]
  obtain ⟨r, h⟩ := hs.mpr (by decide)
  obtain ⟨k, hk, hr2⟩ := hr r h
  have hk2 : k = "k" := by simpa using hk.symm
  rw [h, hr2, hk2]

/-- C13. No set command touches a channel: for every one of the sixteen rules and every
command it accepts, the returned channels are empty. -/
theorem no_channels (r : Rule) (cmd : List String) (res : KeyExtractionFuncResult)
    (h : r.run cmd = Outcome.ok res) : res.Channels = [] :=
  (run_ok_keys r cmd res h).1

/-- C13 at SMOVE src dst member. -/
theorem no_channels_witness :
    Rule.smove.run ["SMOVE", "src", "dst", "member"] = Outcome.ok ⟨[], [], ["src", "dst"]⟩ ∧
      (⟨[], [], ["src", "dst"]⟩ : KeyExtractionFuncResult).Channels = [] :=
  ⟨by decide,
    no_channels Rule.smove ["SMOVE", "src", "dst", "member"] ⟨[], [], ["src", "dst"]⟩
      (by decide)⟩

/-- The result of SISMEMBER on every command: accepted exactly with three tokens, and then
the read keys are both argument tokens, the set key and the member. -/
theorem sismemberKeyFunc_shape (cmd : List String) :
    (Succeeds (sismemberKeyFunc cmd) ↔ cmd.length = 3) ∧
      ∀ r, sismemberKeyFunc cmd = Outcome.ok r →
        ∃ k m, cmd[1]? = some k ∧ cmd[2]? = some m ∧ r = ⟨[], [k, m], []⟩ := by
  rcases cmd with _ | ⟨v, _ | ⟨k, _ | ⟨m, _ | ⟨x, rest⟩⟩⟩⟩ <;>
    simp_arith [Succeeds, sismemberKeyFunc_eq]

/-- C17, evaluated where it fails: on SISMEMBER k m the rule returns the read keys k and m,
the member included, where SMISMEMBER k m returns the read key k alone. -/
theorem sismember_classifies_member :
    sismemberKeyFunc ["SISMEMBER", "k", "m"] = Outcome.ok ⟨[], ["k", "m"], []⟩ ∧
      smismemberKeyFunc ["SMISMEMBER", "k", "m"] = Outcome.ok ⟨[], ["k"], []⟩ ∧
      sliceFrom ["SISMEMBER", "k", "m"] 1 = some ["k", "m"] ∧
      sliceExpr ["SMISMEMBER", "k", "m"] 1 2 = some ["k"] := by
  refine ⟨by decide, by decide, by decide, by decide⟩

/-- Every accepted command but SINTERCARD with the keyword as first argument has a key. -/
theorem has_key_of_ok (r : Rule) (cmd : List String) (res : KeyExtractionFuncResult)
    (h : r.run cmd = Outcome.ok res)
    (hne : ¬ (r = Rule.sintercard ∧ ∃ kw, cmd[1]? = some kw ∧ isLimit kw = true)) :
    res.WriteKeys ++ res.ReadKeys ≠ [] := by
  obtain ⟨_, hlen, n, hn, hzero⟩ := run_ok_keys r cmd res h
  have hpos : 0 < n := by
    rcases Nat.eq_zero_or_pos n with h0 | h0
    · exact absurd (hzero h0) hne
    · exact h0
  intro hnil
  rw [hn] at hnil
  have hl := congrArg List.length hnil
  simp only [List.length_take, List.length_drop, List.length_nil] at hl
  omega

/-- C19, evaluated where it fails: SINTERCARD LIMIT 5 is accepted, the keyword scan stops at
index 1, and the slice `cmd[1:1]` gives no read key; the accepted command has no key. -/
theorem sintercard_accepts_keyless :
    IndexFunc ["SINTERCARD", "LIMIT", "5"] isLimit = 1 ∧
      sliceExpr ["SINTERCARD", "LIMIT", "5"] 1 1 = some [] ∧
      Rule.sintercard.run ["SINTERCARD", "LIMIT", "5"] = Outcome.ok ⟨[], [], []⟩ ∧
      Succeeds (Rule.sintercard.run ["SINTERCARD", "LIMIT", "5"]) :=
  ⟨by decide, by decide, by decide, ⟨⟨[], [], []⟩, by decide⟩⟩

/-- C20. SMISMEMBER reads one key whatever the number of members: it succeeds exactly on
the commands of at least three tokens, and on success the read keys are `[cmd[1]]` with no
write keys and no channels, so that no member token is at a position of the keys. -/
theorem smismember_shape (cmd : List String) :
    (Succeeds (smismemberKeyFunc cmd) ↔ 3 ≤ cmd.length) ∧
      ∀ r, smismemberKeyFunc cmd = Outcome.ok r →
        ∃ k, cmd[1]? = some k ∧ r = ⟨[], [k], []⟩ := by
  rcases cmd with _ | ⟨v, _ | ⟨k, _ | ⟨m, rest⟩⟩⟩ <;>
    simp_arith [Succeeds, smismemberKeyFunc_eq]

/-- C20 at SMISMEMBER k a b c. -/
theorem smismember_shape_witness :
    smismemberKeyFunc ["SMISMEMBER", "k", "a", "b", "c"] = Outcome.ok ⟨[], ["k"], []⟩ := by
  obtain ⟨hs, hr⟩ := smismember_shape ["SMISMEMBER", "k", "a", "b", "c"]
  obtain ⟨r, h⟩ := hs.mpr (by decide)
  obtain ⟨k, hk, hr2⟩ := hr r h
  have hk2 : k = "k" := by simpa using hk.symm
  rw [h, hr2, hk2]


/-! ## Decimal rendering -/

theorem digit_toNat (d : Nat) (h : d < 10) : (Char.ofNat (0x30 + d)).toNat = 0x30 + d := by
  interval_cases d <;> rfl

theorem formatBits_lt (u : Nat) (acc : List Char) (h : u < 10) :
    formatBits u acc = Char.ofNat (0x30 + u) :: acc := by
  rw [formatBits, if_pos h]

theorem formatBits_ge (u : Nat) (acc : List Char) (h : ¬ u < 10) :
    formatBits u acc = formatBits (u / 10) (Char.ofNat (0x30 + u % 10) :: acc) := by
  rw [formatBits, if_neg h]

/-- The digits are put before the accumulator and do not depend on it. -/
theorem formatBits_acc (u : Nat) (acc : List Char) :
    formatBits u acc = formatBits u [] ++ acc := by
  induction u using Nat.strong_induction_on generalizing acc with
  | _ u ih =>
    by_cases h : u < 10
    · rw [formatBits_lt u acc h, formatBits_lt u [] h]
      rfl
    · rw [formatBits_ge u acc h, formatBits_ge u [] h, ih (u / 10) (by omega) (_ :: acc),
        ih (u / 10) (by omega) [_]]
      simp

theorem formatBits_snoc (u : Nat) (h : ¬ u < 10) :
    formatBits u [] = formatBits (u / 10) [] ++ [Char.ofNat (0x30 + u % 10)] := by
  rw [formatBits_ge u [] h, formatBits_acc]

theorem formatBits_ne_nil (u : Nat) : formatBits u [] ≠ [] := by
  by_cases h : u < 10
  · rw [formatBits_lt u [] h]
    exact List.cons_ne_nil _ _
  · rw [formatBits_snoc u h]
    simp

theorem formatBits_all_digits (u : Nat) : ∀ c ∈ formatBits u [], isDecimalDigit c = true := by
  induction u using Nat.strong_induction_on with
  | _ u ih =>
    by_cases h : u < 10
    · rw [formatBits_lt u [] h]
      intro c hc
      rw [List.mem_singleton] at hc
      subst hc
      simp only [isDecimalDigit, digit_toNat u h, decide_eq_true_eq]
      omega
    · rw [formatBits_snoc u h]
      intro c hc
      rcases List.mem_append.mp hc with hc | hc
      · exact ih (u / 10) (by omega) c hc
      · rw [List.mem_singleton] at hc
        subst hc
        simp only [isDecimalDigit, digit_toNat (u % 10) (by omega), decide_eq_true_eq]
        omega

theorem decimalValue_snoc (ds : List Char) (c : Char) :
    decimalValue (ds ++ [c]) = 10 * decimalValue ds + (c.toNat - 0x30) := by
  simp [decimalValue, List.foldl_append]

/-- The digits of `u` denote `u`. -/
theorem decimalValue_formatBits (u : Nat) : decimalValue (formatBits u []) = u := by
  induction u using Nat.strong_induction_on with
  | _ u ih =>
    by_cases h : u < 10
    · rw [formatBits_lt u [] h]
      simp [decimalValue, digit_toNat u h]
    · rw [formatBits_snoc u h, decimalValue_snoc, ih (u / 10) (by omega),
        digit_toNat (u % 10) (by omega)]
      omega

/-- The first digit of a positive number is not zero. -/
theorem formatBits_head (u : Nat) (hu : 0 < u) :
    ∃ c rest, formatBits u [] = c :: rest ∧ c.toNat ≠ 0x30 ∧ isDecimalDigit c = true := by
  induction u using Nat.strong_induction_on with
  | _ u ih =>
    by_cases h : u < 10
    · refine ⟨Char.ofNat (0x30 + u), [], formatBits_lt u [] h, ?_, ?_⟩
      · rw [digit_toNat u h]
        omega
      · simp only [isDecimalDigit, digit_toNat u h, decide_eq_true_eq]
        omega
    · obtain ⟨c, rest, hc, hne, hd⟩ := ih (u / 10) (by omega) (by omega)
      refine ⟨c, rest ++ [Char.ofNat (0x30 + u % 10)], ?_, hne, hd⟩
      rw [formatBits_snoc u h, hc]
      rfl

theorem isDecimalDigit_ne (c : Char) (h : isDecimalDigit c = true) :
    c ≠ '-' ∧ c ≠ '+' := by
  simp only [isDecimalDigit, decide_eq_true_eq] at h
  constructor
  · rintro rfl
    revert h
    decide
  · rintro rfl
    revert h
    decide

/-- The rendering of an integer denotes it. -/
theorem parseDecimal_Itoa (n : Int) : parseDecimal (Itoa n) = some n := by
  have hall := formatBits_all_digits n.natAbs
  have hval := decimalValue_formatBits n.natAbs
  have hall2 : (formatBits n.natAbs []).all isDecimalDigit = true := by
    rw [List.all_eq_true]
    exact hall
  by_cases hn : n < 0
  · have hne := formatBits_ne_nil n.natAbs
    simp only [Itoa, if_pos hn, parseDecimal, if_true, hall2, hne, ne_eq, not_false_eq_true,
      and_self, hval]
    congr 1
    omega
  · cases hd : formatBits n.natAbs [] with
    | nil => exact absurd hd (formatBits_ne_nil n.natAbs)
    | cons c ds =>
      have hc : c ≠ '-' := (isDecimalDigit_ne c (hall c (by rw [hd]; simp))).1
      rw [hd] at hall2 hval
      simp only [Itoa, if_neg hn, parseDecimal, hd, if_neg hc, hall2, if_true, hval]
      congr 1
      omega

/-! ## Claims about the typed string operations -/

/-- C14. The typed string operations surface engine failures unchanged and otherwise return
the decoder's output: for any handler, encoder and decoders, when the handler returns an error
`e` for the submitted command, SetRange, StrLen and Append return `0` with `e`, and SubStr and
GetRange return the empty string with `e`, whatever the decoders are; when the handler returns
bytes `b` and no error, the first three return `ParseIntegerResponse(b)` and the last two
`ParseStringResponse(b)`. -/
theorem typed_ops_surface_engine_result {Context Conn : Type} (server : SugarDB Context Conn)
    (enc : List String → List UInt8) (parseInt : List UInt8 → Int × Option GoError)
    (parseStr : List UInt8 → String × Option GoError)
    (key value new : String) (offset start end_ : Int) :
    ((∀ b e, server.submit enc ["SETRANGE", key, Itoa offset, new] = (b, some e) →
        server.SetRange ⟨enc, parseInt, parseStr⟩ key offset new = (0, some e)) ∧
      (∀ b, server.submit enc ["SETRANGE", key, Itoa offset, new] = (b, none) →
        server.SetRange ⟨enc, parseInt, parseStr⟩ key offset new = parseInt b)) ∧
    ((∀ b e, server.submit enc ["STRLEN", key] = (b, some e) →
        server.StrLen ⟨enc, parseInt, parseStr⟩ key = (0, some e)) ∧
      (∀ b, server.submit enc ["STRLEN", key] = (b, none) →
        server.StrLen ⟨enc, parseInt, parseStr⟩ key = parseInt b)) ∧
    ((∀ b e, server.submit enc ["APPEND", key, value] = (b, some e) →
        server.Append ⟨enc, parseInt, parseStr⟩ key value = (0, some e)) ∧
      (∀ b, server.submit enc ["APPEND", key, value] = (b, none) →
        server.Append ⟨enc, parseInt, parseStr⟩ key value = parseInt b)) ∧
    ((∀ b e, server.submit enc ["SUBSTR", key, Itoa start, Itoa end_] = (b, some e) →
        server.SubStr ⟨enc, parseInt, parseStr⟩ key start end_ = ("", some e)) ∧
      (∀ b, server.submit enc ["SUBSTR", key, Itoa start, Itoa end_] = (b, none) →
        server.SubStr ⟨enc, parseInt, parseStr⟩ key start end_ = parseStr b)) ∧
    ((∀ b e, server.submit enc ["GETRANGE", key, Itoa start, Itoa end_] = (b, some e) →
        server.GetRange ⟨enc, parseInt, parseStr⟩ key start end_ = ("", some e)) ∧
      (∀ b, server.submit enc ["GETRANGE", key, Itoa start, Itoa end_] = (b, none) →
        server.GetRange ⟨enc, parseInt, parseStr⟩ key start end_ = parseStr b)) := by
  refine ⟨⟨?_, ?_⟩, ⟨?_, ?_⟩, ⟨?_, ?_⟩, ⟨?_, ?_⟩, ⟨?_, ?_⟩⟩ <;>
    intros <;>
    simp_all [SugarDB.submit, SugarDB.SetRange, SugarDB.StrLen, SugarDB.Append, SugarDB.SubStr,
      SugarDB.GetRange]

/-- C14 at a handler that fails every command with the error ERR, with decoders that would
return 7 and "x", and at a handler that answers every command with one byte. -/
theorem typed_ops_surface_engine_result_witness :
    (⟨(), fun _ _ _ _ _ => ([], some "ERR")⟩ : SugarDB Unit Unit).SetRange
        ⟨fun _ => [], fun _ => (7, none), fun _ => ("x", none)⟩ "k" 3 "new" = (0, some "ERR") ∧
      (⟨(), fun _ _ _ _ _ => ([1], none)⟩ : SugarDB Unit Unit).GetRange
        ⟨fun _ => [], fun _ => (7, none), fun _ => ("x", none)⟩ "k" 0 (-1) = ("x", none) :=
  ⟨(typed_ops_surface_engine_result (⟨(), fun _ _ _ _ _ => ([], some "ERR")⟩ : SugarDB Unit Unit)
      (fun _ => []) (fun _ => (7, none)) (fun _ => ("x", none)) "k" "v" "new" 3 0 (-1)).1.1
      [] "ERR" rfl,
    (typed_ops_surface_engine_result (⟨(), fun _ _ _ _ _ => ([1], none)⟩ : SugarDB Unit Unit)
      (fun _ => []) (fun _ => (7, none)) (fun _ => ("x", none)) "k" "v" "new" 3 0 (-1)).2.2.2.2.2
      [1] rfl⟩

/-- C18. The typed string operations build the expected token lists, with integers in
canonical decimal form: each operation is the invocation pipeline on its token list, SETRANGE
key dec(offset) new, STRLEN key, SUBSTR key dec(start) dec(end), GETRANGE key dec(start)
dec(end) and APPEND key value, with the string arguments unmodified; and for every integer `n`
the token `dec(n)` denotes `n`, is a minus sign exactly when `n` is negative followed by
digits only (so it has no plus sign), and its digits are the single digit 0 when `n` is zero
and do not start with 0 otherwise. -/
theorem typed_ops_token_lists {Context Conn : Type} (server : SugarDB Context Conn)
    (internal : Internal) (key value new : String) (offset start end_ : Int) :
    server.SetRange internal key offset new
        = invocationPipeline server internal.EncodeCommand internal.ParseIntegerResponse 0
            ["SETRANGE", key, Itoa offset, new] ∧
      server.StrLen internal key
        = invocationPipeline server internal.EncodeCommand internal.ParseIntegerResponse 0
            ["STRLEN", key] ∧
      server.SubStr internal key start end_
        = invocationPipeline server internal.EncodeCommand internal.ParseStringResponse ""
            ["SUBSTR", key, Itoa start, Itoa end_] ∧
      server.GetRange internal key start end_
        = invocationPipeline server internal.EncodeCommand internal.ParseStringResponse ""
            ["GETRANGE", key, Itoa start, Itoa end_] ∧
      server.Append internal key value
        = invocationPipeline server internal.EncodeCommand internal.ParseIntegerResponse 0
            ["APPEND", key, value] ∧
      ∀ n : Int, parseDecimal (Itoa n) = some n ∧
        ∃ ds, (Itoa n).data = (if n < 0 then ['-'] else []) ++ ds ∧ ds ≠ [] ∧
          (∀ c ∈ ds, isDecimalDigit c = true ∧ c ≠ '+' ∧ c ≠ '-') ∧
          (n = 0 → ds = ['0']) ∧ (n ≠ 0 → ds.head? ≠ some '0') := by
  refine ⟨?_, ?_, ?_, ?_, ?_, ?_⟩
  · simp only [SugarDB.SetRange, invocationPipeline, SugarDB.submit]
    rcases server.handleCommand server.context
      (internal.EncodeCommand ["SETRANGE", key, Itoa offset, new]) none false true
      with ⟨b, _ | e⟩ <;> rfl
  · simp only [SugarDB.StrLen, invocationPipeline, SugarDB.submit]
    rcases server.handleCommand server.context
      (internal.EncodeCommand ["STRLEN", key]) none false true with ⟨b, _ | e⟩ <;> rfl
  · simp only [SugarDB.SubStr, invocationPipeline, SugarDB.submit]
    rcases server.handleCommand server.context
      (internal.EncodeCommand ["SUBSTR", key, Itoa start, Itoa end_]) none false true
      with ⟨b, _ | e⟩ <;> rfl
  · simp only [SugarDB.GetRange, invocationPipeline, SugarDB.submit]
    rcases server.handleCommand server.context
      (internal.EncodeCommand ["GETRANGE", key, Itoa start, Itoa end_]) none false true
      with ⟨b, _ | e⟩ <;> rfl
  · simp only [SugarDB.Append, invocationPipeline, SugarDB.submit]
    rcases server.handleCommand server.context
      (internal.EncodeCommand ["APPEND", key, value]) none false true with ⟨b, _ | e⟩ <;> rfl
  · intro n
    refine ⟨parseDecimal_Itoa n, formatBits n.natAbs [], ?_, formatBits_ne_nil n.natAbs, ?_,
      ?_, ?_⟩
    · by_cases hn : n < 0 <;> simp [Itoa, hn]
    · intro c hc
      have hd := formatBits_all_digits n.natAbs c hc
      exact ⟨hd, (isDecimalDigit_ne c hd).2, (isDecimalDigit_ne c hd).1⟩
    · intro h0
      subst h0
      rw [Int.natAbs_zero, formatBits_lt 0 [] (by omega)]
    · intro hne
      obtain ⟨c, rest, hc, hc0, _⟩ := formatBits_head n.natAbs (by omega)
      rw [hc]
      intro hh
      simp only [List.head?_cons, Option.some.injEq] at hh
      rw [hh] at hc0
      exact hc0 rfl

/-- C18 at SETRANGE with the offset -120 and the handler and encoder left arbitrary: the
operation is the pipeline on the tokens SETRANGE k -120 new, and -120 parses back. -/
theorem typed_ops_token_lists_witness :
    Itoa (-120) = "-120" ∧ Itoa 0 = "0" ∧ Itoa 9007 = "9007" ∧
      parseDecimal (Itoa (-120)) = some (-120) ∧
      (⟨(), fun _ msg _ _ _ => (msg, none)⟩ : SugarDB Unit Unit).SetRange
          ⟨fun toks => toks.map (fun t => UInt8.ofNat t.length), fun b => ((b.length : Int), none),
            fun _ => ("", none)⟩ "k" (-120) "new"
        = invocationPipeline (⟨(), fun _ msg _ _ _ => (msg, none)⟩ : SugarDB Unit Unit)
            (fun toks => toks.map (fun t => UInt8.ofNat t.length)) (fun b => ((b.length : Int), none)) 0
            ["SETRANGE", "k", Itoa (-120), "new"] := by
  have h := typed_ops_token_lists (⟨(), fun _ msg _ _ _ => (msg, none)⟩ : SugarDB Unit Unit)
    ⟨fun toks => toks.map (fun t => UInt8.ofNat t.length), fun b => ((b.length : Int), none),
      fun _ => ("", none)⟩ "k" "v" "new" (-120) 0 0
  refine ⟨by simp [Itoa, formatBits], by simp [Itoa, formatBits], by simp [Itoa, formatBits],
    (h.2.2.2.2.2 (-120)).1, h.1⟩


/-! ## Shared storage of the returned sequences -/

/-- A slice expression within the length of its operand views storage of the operand. -/
theorem Slice.within_of_sliceExpr (s t : Slice) (lo hi : Int) (h : s.sliceExpr lo hi = some t)
    (hhi : hi ≤ (s.len : Int)) : t.Within s := by
  unfold Slice.sliceExpr at h
  split_ifs at h with hc
  injection h with h
  subst h
  refine ⟨rfl, ?_, ?_⟩
  · simp only
    omega
  · simp only
    omega

theorem Slice.within_of_sliceFrom (s t : Slice) (lo : Int) (h : s.sliceFrom lo = some t) :
    t.Within s :=
  Slice.within_of_sliceExpr s t lo (s.len : Int) h (le_refl _)

/-- A slice made by `make([]string, 0)` on a heap that extends `h0` is fresh for `h0`. -/
theorem fresh_makeSlice (h0 h : Heap) (hle : h0.length ≤ h.length) :
    (makeSlice h).2.Fresh h0 :=
  ⟨rfl, h.length, rfl, hle⟩

/-- Allocation leaves the elements of a slice of allocated storage as they are. -/
theorem Slice.elems_append (h extra : Heap) (s : Slice) (hwf : s.WellFormed h) :
    s.elems (h ++ extra) = s.elems h := by
  obtain ⟨a, ha, hlt, _, _⟩ := hwf
  simp only [Slice.elems, ha]
  rw [List.getD_append h extra [] a hlt]

/-- The keyword scan returns `-1` or an index of the scanned list. -/
theorem IndexFunc_lt_length (s : List String) (f : String → Bool) (h : IndexFunc s f ≠ -1) :
    0 ≤ IndexFunc s f ∧ IndexFunc s f < (s.length : Int) := by
  obtain ⟨pre, x, post, hs, hpre, hx⟩ := indexFuncFrom_ne_neg_one f s 0 (le_refl 0) h
  subst hs
  rw [IndexFunc, indexFuncFrom_append f pre x post 0 hpre hx]
  simp only [List.length_append, List.length_cons]
  push_cast
  omega

theorem Slice.length_elems_le (h : Heap) (s : Slice) : (s.elems h).length ≤ s.len := by
  unfold Slice.elems
  cases s.arr with
  | none => simp
  | some a => simp only [List.length_take]; omega

/-- Assigning through a view of the command assigns the token of the command it views. -/
theorem Slice.assign_within (h : Heap) (cmd s : Slice) (i : Nat) (v : String)
    (hwf : cmd.WellFormed h) (hs : s.Within cmd) (hi : i < s.len) :
    ∃ h2, s.assign h i v = some h2 ∧
      cmd.elems h2 = (cmd.elems h).set (s.off - cmd.off + i) v := by
  obtain ⟨a, ha, hlt, hcap, hlen⟩ := hwf
  obtain ⟨harr, hoff, hend⟩ := hs
  have hsa : s.arr = some a := by rw [harr, ha]
  refine ⟨h.set a ((h.getD a []).set (s.off + i) v), ?_, ?_⟩
  · simp [Slice.assign, hsa, hi]
  · simp only [Slice.elems, ha]
    have hget : (h.set a ((h.getD a []).set (s.off + i) v)).getD a []
        = (h.getD a []).set (s.off + i) v := by
      simp [List.getD_eq_getElem?_getD, List.getElem?_set_self hlt]
    rw [hget, List.drop_set, if_neg (by omega), List.set_take]
    congr 2
    omega

theorem makeSlice_fst (h : Heap) : (makeSlice h).1 = h ++ [[]] := rfl

/-- Where the sequences of an accepted command come from: the call only allocates, the
channels are made fresh, and the read keys and the write keys are each made fresh or a view
of storage of the command. -/
theorem Mem.run_provenance (r : Rule) (h : Heap) (cmd : Slice) (h2 : Heap)
    (res : Mem.KeyExtractionFuncResult) (hok : Mem.run r h cmd = Mem.Outcome.ok h2 res) :
    (∃ extra, h2 = h ++ extra) ∧ res.Channels.Fresh h ∧
      (res.ReadKeys.Fresh h ∨ res.ReadKeys.Within cmd) ∧
      (res.WriteKeys.Fresh h ∨ res.WriteKeys.Within cmd) := by
  cases r <;>
    simp only [Mem.run, Mem.saddKeyFunc, Mem.scardKeyFunc, Mem.sdiffKeyFunc,
      Mem.sdiffstoreKeyFunc, Mem.sinterKeyFunc, Mem.sintercardKeyFunc, Mem.sinterstoreKeyFunc,
      Mem.sismemberKeyFunc, Mem.smembersKeyFunc, Mem.smismemberKeyFunc, Mem.smoveKeyFunc,
      Mem.spopKeyFunc, Mem.srandmemberKeyFunc, Mem.sremKeyFunc, Mem.sunionKeyFunc,
      Mem.sunionstoreKeyFunc] at hok <;>
    split_ifs at hok <;>
    (try split at hok) <;>
    (try split at hok) <;>
    first
    | (cases hok
       done)
    | (injection hok with e1 e2
       subst e1 e2
       refine ⟨?_, ⟨rfl, _, rfl, by simp⟩, ?_, ?_⟩ <;>
       first
       | exact ⟨[[]], rfl⟩
       | exact ⟨[[], []], by simp [makeSlice_fst]⟩
       | exact Or.inl ⟨rfl, _, rfl, by simp [makeSlice_fst]⟩
       | exact Or.inr (Slice.within_of_sliceFrom _ _ _ ‹_›)
       | exact Or.inr (Slice.within_of_sliceExpr _ _ _ _ ‹_› (by omega))
       | exact Or.inr (Slice.within_of_sliceExpr _ _ _ _ ‹_› (by
           have h1 := IndexFunc_lt_length _ _ ‹_›
           have h2 := Slice.length_elems_le h cmd
           omega)))

theorem Slice.wellFormed_append (h extra : Heap) (s : Slice) (hwf : s.WellFormed h) :
    s.WellFormed (h ++ extra) := by
  obtain ⟨a, ha, hlt, hcap, hlen⟩ := hwf
  refine ⟨a, ha, ?_, hcap, ?_⟩
  · rw [List.length_append]
    omega
  · rw [List.getD_append h extra [] a hlt]
    exact hlen

/-- Assigning through a returned sequence that is fresh or a view of the command: a fresh one
has no element to assign, a view assigns the token of the command it views. -/
theorem Slice.assign_fresh_or_within (h0 h : Heap) (cmd s : Slice) (hwf : cmd.WellFormed h)
    (hs : s.Fresh h0 ∨ s.Within cmd) (i : Nat) (v : String) (hi : i < s.len) :
    ∃ h2, s.assign h i v = some h2 ∧
      cmd.elems h2 = (cmd.elems h).set (s.off - cmd.off + i) v := by
  rcases hs with hf | hw
  · have h0len := hf.1
    omega
  · exact Slice.assign_within h cmd s i v hwf hw hi

/-- C15, as the code has it. Every rule makes its empty sequences fresh with
`make([]string, 0)`, but its key sequences are slice expressions of the command and share its
storage: for every rule and every accepted command that views allocated storage, the call
leaves the tokens of the command as they are, the channels are fresh, the read keys and the
write keys are each fresh and empty or a view of storage of the command, and assigning
element `i` of the read keys or of the write keys assigns the token of the command that the
element views. -/
theorem returned_keys_view_command (r : Rule) (h : Heap) (cmd : Slice)
    (hwf : cmd.WellFormed h) (h2 : Heap) (res : Mem.KeyExtractionFuncResult)
    (hok : Mem.run r h cmd = Mem.Outcome.ok h2 res) :
    cmd.elems h2 = cmd.elems h ∧ res.Channels.Fresh h ∧
      (res.ReadKeys.Fresh h ∨ res.ReadKeys.Within cmd) ∧
      (res.WriteKeys.Fresh h ∨ res.WriteKeys.Within cmd) ∧
      (∀ i v, i < res.ReadKeys.len →
        ∃ h3, res.ReadKeys.assign h2 i v = some h3 ∧
          cmd.elems h3 = (cmd.elems h2).set (res.ReadKeys.off - cmd.off + i) v) ∧
      (∀ i v, i < res.WriteKeys.len →
        ∃ h3, res.WriteKeys.assign h2 i v = some h3 ∧
          cmd.elems h3 = (cmd.elems h2).set (res.WriteKeys.off - cmd.off + i) v) := by
  obtain ⟨⟨extra, hext⟩, hch, hrk, hwk⟩ := Mem.run_provenance r h cmd h2 res hok
  subst hext
  have hwf2 := Slice.wellFormed_append h extra cmd hwf
  exact ⟨Slice.elems_append h extra cmd hwf, hch, hrk, hwk,
    fun i v hi => Slice.assign_fresh_or_within h (h ++ extra) cmd res.ReadKeys hwf2 hrk i v hi,
    fun i v hi => Slice.assign_fresh_or_within h (h ++ extra) cmd res.WriteKeys hwf2 hwk i v hi⟩

/-- C15 as the code has it, at SDIFF a b stored in the one backing array of the heap: the
read keys view the command from index 1, and assigning their element 1 assigns token 2 of
the command. -/
theorem returned_keys_view_command_witness :
    Mem.run Rule.sdiff [["SDIFF", "a", "b"]] ⟨some 0, 0, 3, 3⟩
        = Mem.Outcome.ok [["SDIFF", "a", "b"], [], []]
            ⟨⟨some 1, 0, 0, 0⟩, ⟨some 0, 1, 2, 2⟩, ⟨some 2, 0, 0, 0⟩⟩ ∧
      ∃ h3, Slice.assign [["SDIFF", "a", "b"], [], []] ⟨some 0, 1, 2, 2⟩ 1 "x" = some h3 ∧
        Slice.elems h3 ⟨some 0, 0, 3, 3⟩ = ["SDIFF", "a", "x"] := by
  have hwf : Slice.WellFormed [["SDIFF", "a", "b"]] ⟨some 0, 0, 3, 3⟩ :=
    ⟨0, rfl, by decide, by decide, by decide⟩
  have hok : Mem.run Rule.sdiff [["SDIFF", "a", "b"]] ⟨some 0, 0, 3, 3⟩
      = Mem.Outcome.ok [["SDIFF", "a", "b"], [], []]
          ⟨⟨some 1, 0, 0, 0⟩, ⟨some 0, 1, 2, 2⟩, ⟨some 2, 0, 0, 0⟩⟩ := by decide
  obtain ⟨_, _, _, _, hr, _⟩ := returned_keys_view_command Rule.sdiff [["SDIFF", "a", "b"]]
    ⟨some 0, 0, 3, 3⟩ hwf _ _ hok
  obtain ⟨h3, ha, he⟩ := hr 1 "x" (by decide)
  exact ⟨hok, h3, ha, by rw [he]; decide⟩

/-- C15 as the specification has it fails: on SADD k a, stored in the one backing array of
the heap, the rule returns write keys that view index 1 of that array, and assigning element
0 of the returned write keys afterwards changes the command from SADD k a to SADD x a. -/
theorem returned_keys_alias_command :
    Mem.run Rule.sadd [["SADD", "k", "a"]] ⟨some 0, 0, 3, 3⟩
        = Mem.Outcome.ok [["SADD", "k", "a"], [], []]
            ⟨⟨some 1, 0, 0, 0⟩, ⟨some 2, 0, 0, 0⟩, ⟨some 0, 1, 1, 2⟩⟩ ∧
      Slice.assign [["SADD", "k", "a"], [], []] ⟨some 0, 1, 1, 2⟩ 0 "x"
        = some [["SADD", "x", "a"], [], []] ∧
      Slice.elems [["SADD", "k", "a"], [], []] ⟨some 0, 0, 3, 3⟩ = ["SADD", "k", "a"] ∧
      Slice.elems [["SADD", "x", "a"], [], []] ⟨some 0, 0, 3, 3⟩ = ["SADD", "x", "a"] ∧
      Slice.elems [["SADD", "x", "a"], [], []] ⟨some 0, 0, 3, 3⟩
        ≠ Slice.elems [["SADD", "k", "a"], [], []] ⟨some 0, 0, 3, 3⟩ := by
  refine ⟨by decide, by decide, by decide, by decide, by decide⟩


/-! ## The storage embedding shows the list embedding -/

theorem Slice.length_elems (h : Heap) (s : Slice) (hwf : s.WellFormed h) :
    (s.elems h).length = s.len := by
  obtain ⟨a, ha, _, hcap, hlen⟩ := hwf
  simp only [Slice.elems, ha, List.length_take, List.length_drop]
  omega

theorem Slice.elems_makeSlice (g h : Heap) : (makeSlice g).2.elems h = [] := by
  simp [Slice.elems, makeSlice]

/-- A slice expression within the length of the command, read in the heap after any
allocation, is the slice expression of the list embedding on the tokens of the command. -/
theorem Slice.sliceExpr_view (h extra : Heap) (cmd : Slice) (hwf : cmd.WellFormed h)
    (lo hi : Int) (hhi : hi ≤ (cmd.len : Int)) :
    (cmd.sliceExpr lo hi).map (Slice.elems (h ++ extra))
      = SugarDB.sliceExpr (cmd.elems h) lo hi := by
  have hl := Slice.length_elems h cmd hwf
  obtain ⟨a, ha, hlt, hcap, hlen⟩ := hwf
  unfold Slice.sliceExpr SugarDB.sliceExpr
  rw [hl]
  by_cases hc : 0 ≤ lo ∧ lo ≤ hi ∧ hi ≤ (cmd.len : Int)
  · rw [if_pos hc, if_pos ⟨hc.1, hc.2.1, by omega⟩]
    obtain ⟨lo, rfl⟩ := Int.eq_ofNat_of_zero_le hc.1
    obtain ⟨hi, rfl⟩ := Int.eq_ofNat_of_zero_le (le_trans hc.1 hc.2.1)
    have h1 : lo ≤ hi := by omega
    have h2 : hi ≤ cmd.len := by omega
    simp only [Option.map_some', Slice.elems, ha, Int.toNat_ofNat, Option.some.injEq]
    rw [List.getD_append h extra [] a hlt]
    have e : (((hi : Int) - (lo : Int)).toNat) = hi - lo := by omega
    rw [e, List.take_take, Nat.min_eq_left h2, List.drop_take, List.drop_drop]
  · rw [if_neg hc, if_neg (fun hx => hc ⟨hx.1, hx.2.1, hhi⟩)]
    rfl

/-- The storage embedding refines the list embedding: on a command that views allocated
storage, reading the sequences a rule returns in the heap it leaves gives the outcome of the
rule of the list embedding on the tokens of the command. -/
theorem mem_run_view (r : Rule) (h : Heap) (cmd : Slice) (hwf : cmd.WellFormed h) :
    (Mem.run r h cmd).view = r.run (cmd.elems h) := by
  have hl := Slice.length_elems h cmd hwf
  cases r <;>
    simp only [Mem.run, Rule.run, Mem.saddKeyFunc, Mem.scardKeyFunc, Mem.sdiffKeyFunc,
      Mem.sdiffstoreKeyFunc, Mem.sinterKeyFunc, Mem.sintercardKeyFunc, Mem.sinterstoreKeyFunc,
      Mem.sismemberKeyFunc, Mem.smembersKeyFunc, Mem.smismemberKeyFunc, Mem.smoveKeyFunc,
      Mem.spopKeyFunc, Mem.srandmemberKeyFunc, Mem.sremKeyFunc, Mem.sunionKeyFunc,
      Mem.sunionstoreKeyFunc, saddKeyFunc, scardKeyFunc, sdiffKeyFunc, sdiffstoreKeyFunc,
      sinterKeyFunc, sintercardKeyFunc, sinterstoreKeyFunc, sismemberKeyFunc, smembersKeyFunc,
      smismemberKeyFunc, smoveKeyFunc, spopKeyFunc, srandmemberKeyFunc, sremKeyFunc,
      sunionKeyFunc, sunionstoreKeyFunc, hl, Slice.sliceFrom, sliceFrom] <;>
    split_ifs <;>
    first
    | rfl
    | (rw [← Slice.sliceExpr_view h [[]] cmd hwf 1 2 (by omega),
         ← Slice.sliceExpr_view h [[]] cmd hwf 2 cmd.len (by omega)]
       cases cmd.sliceExpr 2 cmd.len <;> cases cmd.sliceExpr 1 2 <;>
         simp [Mem.Outcome.view, returning, Slice.elems_makeSlice, makeSlice_fst])
    | (rw [← Slice.sliceExpr_view h [[], []] cmd hwf 1 2 (by omega)]
       cases cmd.sliceExpr 1 2 <;>
         simp [Mem.Outcome.view, returning, Slice.elems_makeSlice, makeSlice_fst])
    | (rw [← Slice.sliceExpr_view h [[], []] cmd hwf 1 3 (by omega)]
       cases cmd.sliceExpr 1 3 <;>
         simp [Mem.Outcome.view, returning, Slice.elems_makeSlice, makeSlice_fst])
    | (rw [← Slice.sliceExpr_view h [[], []] cmd hwf 1 cmd.len (by omega)]
       cases cmd.sliceExpr 1 cmd.len <;>
         simp [Mem.Outcome.view, returning, Slice.elems_makeSlice, makeSlice_fst])
    | (have hb := IndexFunc_lt_length (cmd.elems h) isLimit ‹_›
       rw [hl] at hb
       rw [← Slice.sliceExpr_view h [[], []] cmd hwf 1 (IndexFunc (cmd.elems h) isLimit)
         (by omega)]
       cases cmd.sliceExpr 1 (IndexFunc (cmd.elems h) isLimit) <;>
         simp [Mem.Outcome.view, returning, Slice.elems_makeSlice, makeSlice_fst])


/-! ## Claims corrected to what the code does for SINTERCARD -/

theorem equalFoldRunes_length (s t : List Char) (h : equalFoldRunes s t = true) :
    s.length = t.length := by
  induction s generalizing t with
  | nil =>
    cases t with
    | nil => rfl
    | cons b bs => simp [equalFoldRunes] at h
  | cons a as ih =>
    cases t with
    | nil => simp [equalFoldRunes] at h
    | cons b bs =>
      simp only [equalFoldRunes, Bool.and_eq_true] at h
      simp only [List.length_cons, ih bs h.2]

/-- A verb that names SINTERCARD is not the keyword. -/
theorem not_isLimit_of_sintercard_verb (v : String) (h : EqualFold v "SINTERCARD" = true) :
    isLimit v = false := by
  cases hf : isLimit v with
  | false => rfl
  | true =>
    have h1 := equalFoldRunes_length _ _ h
    have h2 := equalFoldRunes_length _ _ hf
    rw [h1] at h2
    revert h2
    decide

/-- C8, as the code has it. Every rule is a total function of its token list except that
SINTERCARD panics on the token lists of at least two tokens whose verb token is
case-insensitively equal to "limit": a rule panics exactly there, everywhere else it returns
either a result or the validation error with no slice expression out of range, and so in
particular on every command whose verb is SINTERCARD in any case, the commands the registry
routes to that rule. -/
theorem rules_total_except_keyword_verb (r : Rule) (cmd : List String) :
    (r.run cmd = Outcome.panic ↔
        r = Rule.sintercard ∧ 2 ≤ cmd.length ∧
          ∃ v, cmd[0]? = some v ∧ EqualFold v "limit" = true) ∧
      (r.run cmd ≠ Outcome.panic →
        r.run cmd = Outcome.err KeyExtractionFuncResult.zero WrongArgsResponse ∨
          ∃ res, r.run cmd = Outcome.ok res) ∧
      (∀ v, cmd[0]? = some v → EqualFold v "SINTERCARD" = true →
        r.run cmd ≠ Outcome.panic) := by
  have hiff : r.run cmd = Outcome.panic ↔
      r = Rule.sintercard ∧ 2 ≤ cmd.length ∧
        ∃ v, cmd[0]? = some v ∧ EqualFold v "limit" = true := by
    by_cases hr : r = Rule.sintercard
    · subst hr
      rcases sintercardKeyFunc_cases cmd with ⟨hlt, h1⟩ | ⟨hge, hv, h1⟩ | ⟨hge, hv, res, h1⟩
      · constructor
        · intro h
          rw [Rule.run, h1] at h
          cases h
        · rintro ⟨_, hge, _⟩
          omega
      · exact ⟨fun _ => ⟨rfl, hge, hv⟩, fun _ => h1⟩
      · constructor
        · intro h
          rw [Rule.run, h1] at h
          cases h
        · rintro ⟨_, _, v, hv0, hv1⟩
          have := hv v hv0
          rw [isLimit, hv1] at this
          cases this
    · constructor
      · intro h
        rcases run_eq_of_ne_sintercard r cmd hr with h1 | ⟨res, h1⟩ <;>
          · rw [h1] at h
            cases h
      · rintro ⟨h, _⟩
        exact absurd h hr
  refine ⟨hiff, ?_, ?_⟩
  · intro hne
    by_cases hr : r = Rule.sintercard
    · subst hr
      rcases sintercardKeyFunc_cases cmd with ⟨_, h1⟩ | ⟨_, _, h1⟩ | ⟨_, _, res, h1⟩
      · exact Or.inl h1
      · exact absurd h1 hne
      · exact Or.inr ⟨res, h1⟩
    · exact run_eq_of_ne_sintercard r cmd hr
  · intro v hv0 hv1 hp
    obtain ⟨_, _, w, hw0, hw1⟩ := hiff.mp hp
    rw [hv0] at hw0
    injection hw0 with hw0
    subst hw0
    have := not_isLimit_of_sintercard_verb v hv1
    rw [isLimit, hw1] at this
    cases this

/-- C8 as the code has it, at SinterCard a limit 3, which is routed to the rule and does not
panic, and at LIMIT 5, where the panic is the one the theorem allows. -/
theorem rules_total_except_keyword_verb_witness :
    Rule.sintercard.run ["SinterCard", "a", "limit", "3"] ≠ Outcome.panic ∧
      Rule.sintercard.run ["SinterCard", "a", "limit", "3"] = Outcome.ok ⟨[], ["a"], []⟩ ∧
      (Rule.sintercard.run ["LIMIT", "5"] = Outcome.panic ↔
        Rule.sintercard = Rule.sintercard ∧ 2 ≤ ["LIMIT", "5"].length ∧
          ∃ v, ["LIMIT", "5"][0]? = some v ∧ EqualFold v "limit" = true) :=
  ⟨(rules_total_except_keyword_verb Rule.sintercard ["SinterCard", "a", "limit", "3"]).2.2
      "SinterCard" (by decide) (by decide),
    by decide,
    (rules_total_except_keyword_verb Rule.sintercard ["LIMIT", "5"]).1⟩

/-- C19, as the code has it. An accepted command has no key exactly when the rule is
SINTERCARD and the first argument `cmd[1]` is case-insensitively equal to "limit", where the
modifier clause leaves no token between the verb and the keyword; every other command that
one of the sixteen rules accepts has a read key or a write key. -/
theorem keyless_iff_keyword_first (r : Rule) (cmd : List String)
    (res : KeyExtractionFuncResult) (hok : r.run cmd = Outcome.ok res) :
    (res.ReadKeys = [] ∧ res.WriteKeys = []) ↔
      r = Rule.sintercard ∧ ∃ kw, cmd[1]? = some kw ∧ EqualFold kw "limit" = true := by
  constructor
  · rintro ⟨hr, hw⟩
    obtain ⟨_, hlen, n, hn, hzero⟩ := run_ok_keys r cmd res hok
    apply hzero
    rw [hr, hw] at hn
    have hl := congrArg List.length hn
    simp only [List.append_nil, List.length_nil, List.length_take, List.length_drop] at hl
    omega
  · rintro ⟨hr, kw, hkw0, hkw1⟩
    subst hr
    rcases cmd with _ | ⟨v, _ | ⟨k, rest⟩⟩
    · simp at hkw0
    · simp at hkw0
    · have hk : k = kw := by simpa using hkw0
      subst hk
      cases hv : isLimit v with
      | true =>
        rw [Rule.run, sintercardKeyFunc_verb_limit v (k :: rest) hv (by simp)] at hok
        cases hok
      | false =>
        have key := sintercardKeyFunc_at_limit v [] k rest hv (by simp) hkw1
        rw [Rule.run] at hok
        simp only [List.cons_append, List.nil_append] at key
        rw [key] at hok
        injection hok with hok
        subst hok
        exact ⟨rfl, rfl⟩

/-- C19 as the code has it, at SINTERCARD LIMIT 5, accepted with no key, and at SINTERCARD s1
LIMIT 5, accepted with the key s1. -/
theorem keyless_iff_keyword_first_witness :
    Rule.sintercard.run ["SINTERCARD", "LIMIT", "5"] = Outcome.ok ⟨[], [], []⟩ ∧
      Rule.sintercard.run ["SINTERCARD", "s1", "LIMIT", "5"] = Outcome.ok ⟨[], ["s1"], []⟩ ∧
      ¬ (Rule.sintercard = Rule.sintercard ∧
        ∃ kw, ["SINTERCARD", "s1", "LIMIT", "5"][1]? = some kw ∧ EqualFold kw "limit" = true) :=
  have h1 : Rule.sintercard.run ["SINTERCARD", "s1", "LIMIT", "5"]
      = Outcome.ok ⟨[], ["s1"], []⟩ := by decide
  ⟨by decide, h1,
    fun h => absurd
      ((keyless_iff_keyword_first Rule.sintercard ["SINTERCARD", "s1", "LIMIT", "5"]
        ⟨[], ["s1"], []⟩ h1).mpr h).1 (by decide)⟩

end SugarDB
